import Mathlib

/-!  Shallow embedding of `basic.py` (the tokenizer and recursive-descent
parser of the BASIC-interpreter tutorial repository), together with proofs
of the specification's claims about it.

Modelling conventions:
* Python's mutable `Position` objects are modelled as values.  In the source
  a number token's `pos_end` stores a reference to the lexer's live position
  (no copy is taken), so we record the value that reference has at the moment
  the token is created: the scan position just past the literal.  No theorem
  below inspects a number token's `pos_end` in the final token list, which is
  the only place where the aliasing could later be observed.
* `Lexer.__init__` advances the `(-1, 0, -1)` start position once before any
  character is inspected, so `makeTokens` starts the scan at index 0,
  line 0, column 0.
* Python `int(...)` on the accumulated digit string is the decimal value;
  Python `float(...)` is modelled by the exact decimal rational value of the
  literal (CPython additionally rounds to the nearest IEEE double; every
  claim uses only this parse function itself, never float arithmetic).
* The parser reads `self.current_tok`, which is unassigned when the token
  list is empty; reading it then raises AttributeError, modelled by the
  `crash` outcome.  The recursion is indexed by fuel; running out of fuel is
  the `fuelOut` outcome, an artifact of the embedding.
-/

/-- `Position` (basic.py 71-89): index, line and column of a cursor into the
source text, with the file name and full text carried along. -/
structure Position where
  idx : Nat
  ln : Nat
  col : Nat
  fn : String
  ftxt : String
deriving DecidableEq, Repr

/-- `Position.advance` (basic.py 78-86): step past one character; the
argument is the character being stepped past (`none` when the caller passes
no character), and stepping past a newline starts a new line. -/
def Position.advance (p : Position) (c : Option Char) : Position :=
  let q : Position := { p with idx := p.idx + 1, col := p.col + 1 }
  if c = some '\n' then { q with ln := q.ln + 1, col := 0 } else q

/-- The token-type constants of basic.py 8-16. -/
inductive TokenType where
  | TT_INT
  | TT_FLOAT
  | TT_PLUS
  | TT_MINUS
  | TT_MUL
  | TT_DIV
  | TT_LPAREN
  | TT_RPAREN
  | TT_EOF
deriving DecidableEq, Repr

open TokenType

/-- A token's literal value: Python stores an `int` or a `float` here. -/
inductive TokenValue where
  | intVal (n : Int)
  | floatVal (q : ℚ)
deriving DecidableEq, Repr

/-- `Token` (basic.py 18-28): type, optional value and the source span. -/
structure Token where
  type : TokenType
  value : Option TokenValue
  pos_start : Position
  pos_end : Position
deriving DecidableEq, Repr

/-- `Token.__init__` when only `pos_start` is passed (basic.py 23-25):
`pos_start` is copied and `pos_end` is a copy advanced once (no character
argument). -/
def Token.ofStart (ty : TokenType) (p : Position) : Token :=
  ⟨ty, none, p, p.advance none⟩

/-- `Error` (basic.py 44-49): category name, detail text and span. -/
structure Error where
  pos_start : Position
  pos_end : Position
  error_name : String
  details : String
deriving DecidableEq, Repr

/-- `IllegalCharError` (basic.py 59-61). -/
def IllegalCharError (ps pe : Position) (details : String) : Error :=
  ⟨ps, pe, "Illegal Character", details⟩

/-- `InvalidSyntaxError` (basic.py 63-65). -/
def InvalidSyntaxError (ps pe : Position) (details : String) : Error :=
  ⟨ps, pe, "Invalid Syntax", details⟩

/-- `DIGITS` (basic.py 38). -/
def DIGITS : String := "0123456789"

/-- The whitespace characters `make_tokens` skips (basic.py 119). -/
def WHITESPACE : String := "\t\n\r "

/-- Value of Python `int(...)` on a string of decimal digits. -/
def digitsVal (l : List Char) : Nat :=
  l.foldl (fun a c => 10 * a + (c.toNat - 48)) 0

/-- Model of Python `int(num_str)` for the digit strings `make_number`
accumulates. -/
def intValue (s : String) : Int :=
  (digitsVal s.data : Int)

/-- Model of Python `float(num_str)` for the digit-and-one-dot strings
`make_number` accumulates: the exact decimal value, as a rational. -/
def floatValue (s : String) : ℚ :=
  let ip := s.data.takeWhile (fun c => c ≠ '.')
  let fp := (s.data.dropWhile (fun c => c ≠ '.')).drop 1
  (digitsVal ip : ℚ) + (digitsVal fp : ℚ) / (10 : ℚ) ^ fp.length

/-- The scanning loop of `Lexer.make_number` (basic.py 156-164): consume
digits and at most one dot, accumulating `num_str` and `dot_count`; a second
dot breaks out of the loop without being consumed.  Returns the accumulated
string, the dot count, the unconsumed characters and the final position. -/
def makeNumberLoop : List Char → Position → String → Nat → String × Nat × List Char × Position
  | [], pos, num_str, dot_count => (num_str, dot_count, [], pos)
  | c :: rest, pos, num_str, dot_count =>
    if c ∈ (DIGITS ++ ".").data then
      if c = '.' then
        if dot_count = 1 then (num_str, dot_count, c :: rest, pos)
        else makeNumberLoop rest (pos.advance (some c)) (num_str ++ ".") (dot_count + 1)
      else makeNumberLoop rest (pos.advance (some c)) (num_str.push c) dot_count
    else (num_str, dot_count, c :: rest, pos)

theorem makeNumberLoop_rest_length_le :
    ∀ (l : List Char) (pos : Position) (n : String) (d : Nat),
      (makeNumberLoop l pos n d).2.2.1.length ≤ l.length := by
  intro l
  induction l with
  | nil => intro pos n d; simp [makeNumberLoop]
  | cons c rest ih =>
    intro pos n d
    simp only [makeNumberLoop]
    split
    · split
      · split
        · simp
        · exact le_trans (ih _ _ _) (Nat.le_succ _)
      · exact le_trans (ih _ _ _) (Nat.le_succ _)
    · simp

/-- `Lexer.make_number` (basic.py 151-169): scan a numeric literal starting
at the current character, returning the INT or FLOAT token, the unconsumed
characters and the final position.  The token's `pos_start` is a genuine
copy of the entry position (basic.py 154).  Its `pos_end`, however, is in
the source a reference to the lexer's live `self.pos` (basic.py 167/169 pass
it uncopied and `Token.__init__` line 28 stores the reference), which later
mutations of the cursor keep moving; this value model records the snapshot
the reference holds at creation time, the position just past the literal,
and no theorem below states what a number token's `pos_end` field holds in
the final returned token list. -/
def makeNumber (l : List Char) (pos : Position) : Token × List Char × Position :=
  match makeNumberLoop l pos "" 0 with
  | (num_str, dot_count, rest, pos2) =>
    if dot_count = 0 then
      (⟨TT_INT, some (.intVal (intValue num_str)), pos, pos2⟩, rest, pos2)
    else
      (⟨TT_FLOAT, some (.floatVal (floatValue num_str)), pos, pos2⟩, rest, pos2)

theorem makeNumber_rest_length_le (l : List Char) (pos : Position) :
    (makeNumber l pos).2.1.length ≤ l.length := by
  simp only [makeNumber]
  rcases h : makeNumberLoop l pos "" 0 with ⟨n, d, rest, p2⟩
  have := makeNumberLoop_rest_length_le l pos "" 0
  rw [h] at this
  by_cases hd : d = 0 <;> simp [hd] <;> exact this

theorem makeNumber_rest_length_lt (c : Char) (rest : List Char) (pos : Position)
    (hc : c ∈ DIGITS.data) :
    (makeNumber (c :: rest) pos).2.1.length < (c :: rest).length := by
  have hcd : c ∈ (DIGITS ++ ".").data := by
    rw [String.data_append]; exact List.mem_append_left _ hc
  have hdot : c ≠ '.' := by
    intro h; subst h; revert hc; decide
  simp only [makeNumber, makeNumberLoop, hcd, if_true, hdot, if_false]
  rcases h : makeNumberLoop rest (pos.advance (some c)) ("".push c) 0 with ⟨n, d, rest2, p2⟩
  have := makeNumberLoop_rest_length_le rest (pos.advance (some c)) ("".push c) 0
  rw [h] at this
  by_cases hd : d = 0 <;>
    simp [hd] <;> exact Nat.lt_succ_of_le this

/-- Accumulating a token onto the rest of the scan (`tokens.append` in
basic.py 115-149); when the rest of the scan ends in an illegal-character
error the whole call returns an empty token list and that error
(basic.py 145 returns a fresh `[]`). -/
def consToken (tok : Token) : List Token × Option Error → List Token × Option Error
  | (ts, none) => (tok :: ts, none)
  | (_, some e) => ([], some e)

/-- The scanning loop of `Lexer.make_tokens` (basic.py 115-149) over the
unconsumed characters, with the current position. -/
def lexLoop : List Char → Position → List Token × Option Error
  | [], pos => ([Token.ofStart TT_EOF pos], none)
  | c :: rest, pos =>
    if c ∈ WHITESPACE.data then
      lexLoop rest (pos.advance (some c))
    else if c ∈ DIGITS.data then
      match _h : makeNumber (c :: rest) pos with
      | (tok, rest2, pos2) => consToken tok (lexLoop rest2 pos2)
    else if c = '+' then
      consToken (Token.ofStart TT_PLUS pos) (lexLoop rest (pos.advance (some c)))
    else if c = '-' then
      consToken (Token.ofStart TT_MINUS pos) (lexLoop rest (pos.advance (some c)))
    else if c = '*' then
      consToken (Token.ofStart TT_MUL pos) (lexLoop rest (pos.advance (some c)))
    else if c = '/' then
      consToken (Token.ofStart TT_DIV pos) (lexLoop rest (pos.advance (some c)))
    else if c = '(' then
      consToken (Token.ofStart TT_LPAREN pos) (lexLoop rest (pos.advance (some c)))
    else if c = ')' then
      consToken (Token.ofStart TT_RPAREN pos) (lexLoop rest (pos.advance (some c)))
    else
      let pos2 := pos.advance (some c)
      ([], some (IllegalCharError pos pos2
        ("Error on " ++ toString pos.idx ++ " to " ++ toString pos2.idx ++
          " since '" ++ String.singleton c ++ "' is not a valid token")))
termination_by l _ => l.length
decreasing_by
  · simp [Nat.lt_succ_iff]
  · have hlt := makeNumber_rest_length_lt c rest pos (by assumption)
    rw [_h] at hlt
    exact hlt
  all_goals simp [Nat.lt_succ_iff]

/-- `Lexer.make_tokens` entered from the state `Lexer.__init__` builds for
`(fn, text)`: position index 0, line 0, column 0 (basic.py 104-113). -/
def makeTokens (fn text : String) : List Token × Option Error :=
  lexLoop text.data ⟨0, 0, 0, fn, text⟩

/-- The AST node variants (basic.py 176-198).  A Python variable or slot of
this kind holds a node or `None`; `noneNode` models the `None` case (it is
what `ParseResult.register` returns when the registered sub-result carried
no node), so one Lean type covers every node-or-None place. -/
inductive Node where
  | NumberNode (token : Token)
  | UnaryOpNode (op_tok : Token) (node : Node)
  | BinOpNode (left_node : Node) (op_tok : Token) (right_node : Node)
  | noneNode
deriving DecidableEq, Repr

/-- The position-free skeleton of a tree: node structure plus the token
types and literal values, with spans erased. -/
inductive Shape where
  | noneShape
  | numShape (ty : TokenType) (v : Option TokenValue)
  | unShape (op : TokenType) (arg : Shape)
  | binShape (left : Shape) (op : TokenType) (right : Shape)
deriving DecidableEq, Repr

def Node.shape : Node → Shape
  | .NumberNode t => .numShape t.type t.value
  | .UnaryOpNode op n => .unShape op.type n.shape
  | .BinOpNode l op r => .binShape l.shape op.type r.shape
  | .noneNode => .noneShape

/-- `ParseResult` (basic.py 202-219): the node slot (`noneNode` while
unset) and the error slot.  `failure` (217-219) sets the error and leaves
any node in place. -/
structure ParseResult where
  node : Node
  error : Option Error
deriving DecidableEq, Repr

/-- The parser's state (basic.py 227-237): the token list, the cursor, and
`current_tok`, which is `none` while Python's attribute is unassigned. -/
structure PState where
  tokens : List Token
  tok_idx : Nat
  current_tok : Option Token
deriving DecidableEq, Repr

/-- `Parser.advance` (basic.py 233-237): move the cursor; `current_tok` is
refreshed only while the cursor is inside the list and is retained unchanged
once it moves past the end. -/
def Parser.advance (st : PState) : PState :=
  let i := st.tok_idx + 1
  ⟨st.tokens, i, if i < st.tokens.length then st.tokens[i]? else st.current_tok⟩

/-- `Parser.__init__` (basic.py 228-231): `tok_idx` starts at -1 and one
`advance` moves it to 0; on an empty list `current_tok` is never assigned. -/
def Parser.init (tokens : List Token) : PState :=
  ⟨tokens, 0, tokens[0]?⟩

/-- Outcome of running a parser method: a `ParseResult` with the state left
behind, the AttributeError crash of reading an unassigned `current_tok`, or
fuel exhaustion (an artifact of the fuel-indexed embedding). -/
inductive PResult where
  | ok (res : ParseResult) (st : PState)
  | crash
  | fuelOut
deriving DecidableEq, Repr

/-- The rule `bin_op` is given as `func` (basic.py 276, 280): `Parser.factor`
or `Parser.term`. -/
inductive BinOpRule where
  | factorRule
  | termRule
deriving DecidableEq, Repr

mutual

/-- `Parser.factor` (basic.py 245-273). -/
def factorF : Nat → PState → PResult
  | 0, _ => .fuelOut
  | f + 1, st =>
    match st.current_tok with
    | none => .crash
    | some tok =>
      if tok.type = TT_PLUS ∨ tok.type = TT_MINUS then
        match factorF f (Parser.advance st) with
        | .ok sub st2 =>
          match sub.error with
          | some e => .ok ⟨.noneNode, some e⟩ st2
          | none => .ok ⟨.UnaryOpNode tok sub.node, none⟩ st2
        | r => r
      else if tok.type = TT_INT ∨ tok.type = TT_FLOAT then
        .ok ⟨.NumberNode tok, none⟩ (Parser.advance st)
      else if tok.type = TT_LPAREN then
        match binOpF f .termRule [TT_PLUS, TT_MINUS] (Parser.advance st) with
        | .ok sub st2 =>
          match sub.error with
          | some e => .ok ⟨.noneNode, some e⟩ st2
          | none =>
            match st2.current_tok with
            | none => .crash
            | some ct =>
              if ct.type = TT_RPAREN then .ok ⟨sub.node, none⟩ (Parser.advance st2)
              else .ok ⟨.noneNode, some (InvalidSyntaxError ct.pos_start ct.pos_end "Expected ')'")⟩ st2
        | r => r
      else
        .ok ⟨.noneNode, some (InvalidSyntaxError tok.pos_start tok.pos_end "Expected int or float")⟩ st

/-- `Parser.bin_op` (basic.py 283-300) up to its while loop: parse the first
operand with `func`, then fold.  `Parser.term` is `binOpF · .factorRule
[TT_MUL, TT_DIV]` and `Parser.expr` is `binOpF · .termRule [TT_PLUS,
TT_MINUS]` (basic.py 275-280), so the `func` dispatch calls those. -/
def binOpF : Nat → BinOpRule → List TokenType → PState → PResult
  | 0, _, _, _ => .fuelOut
  | f + 1, rule, ops, st =>
    match (match rule with
           | .factorRule => factorF f st
           | .termRule => binOpF f .factorRule [TT_MUL, TT_DIV] st) with
    | .ok sub st2 =>
      match sub.error with
      | some e => .ok ⟨.noneNode, some e⟩ st2
      | none => binOpLoopF f rule ops sub.node st2
    | r => r

/-- The while loop of `Parser.bin_op` (basic.py 291-298): while the current
token's type is in `ops`, consume it, parse another operand and fold
left-associatively. -/
def binOpLoopF : Nat → BinOpRule → List TokenType → Node → PState → PResult
  | 0, _, _, _, _ => .fuelOut
  | f + 1, rule, ops, left, st =>
    match st.current_tok with
    | none => .crash
    | some ct =>
      if ct.type ∈ ops then
        match (match rule with
               | .factorRule => factorF f (Parser.advance st)
               | .termRule => binOpF f .factorRule [TT_MUL, TT_DIV] (Parser.advance st)) with
        | .ok sub st2 =>
          match sub.error with
          | some e => .ok ⟨.noneNode, some e⟩ st2
          | none => binOpLoopF f rule ops (.BinOpNode left ct sub.node) st2
        | r => r
      else .ok ⟨left, none⟩ st

end

/-- `Parser.term` (basic.py 275-276). -/
def termF (f : Nat) (st : PState) : PResult :=
  binOpF f .factorRule [TT_MUL, TT_DIV] st

/-- `Parser.expr` (basic.py 279-280). -/
def exprF (f : Nat) (st : PState) : PResult :=
  binOpF f .termRule [TT_PLUS, TT_MINUS] st

/-- `Parser.parse` (basic.py 239-243).  Note that the trailing-input branch
calls `ParseResult.failure` on the result `expr` already filled, and
`failure` does not clear the node: the returned result can carry both a
node and an error. -/
def parseF (f : Nat) (st : PState) : PResult :=
  match exprF f st with
  | .ok res st2 =>
    match res.error with
    | some _ => .ok res st2
    | none =>
      match st2.current_tok with
      | none => .crash
      | some ct =>
        if ct.type ≠ TT_EOF then
          .ok { res with error := some (InvalidSyntaxError ct.pos_start ct.pos_end
                  "Expected '+', '-', '*', '/' or EOF") } st2
        else .ok res st2
  | r => r

/-- Fuel that is ample for any parse of `tokens` (each parser call either
consumes a token first or descends at most three rule levels). -/
def parseFuel (tokens : List Token) : Nat :=
  4 * tokens.length + 8

/-- `run` (basic.py 308-318).  The result is `none` only if the parser would
crash or the fuel artifact were exhausted; neither happens on lexed input. -/
def run (fn text : String) : Option (Node × Option Error) :=
  match makeTokens fn text with
  | (_, some error) => some (.noneNode, some error)
  | (tokens, none) =>
    match parseF (parseFuel tokens) (Parser.init tokens) with
    | .ok res _ => some (res.node, res.error)
    | _ => none

/-! ### Structural facts about the lexer -/

theorem consToken_eq_none (tok : Token) (r : List Token × Option Error) (ts : List Token)
    (h : consToken tok r = (ts, none)) :
    ∃ ts0, r = (ts0, none) ∧ ts = tok :: ts0 := by
  rcases r with ⟨a, b⟩
  cases b with
  | none =>
    simp only [consToken, Prod.mk.injEq] at h
    exact ⟨a, rfl, h.1.symm⟩
  | some e => simp [consToken] at h

theorem makeNumber_type (l : List Char) (pos : Position) :
    (makeNumber l pos).1.type = TT_INT ∨ (makeNumber l pos).1.type = TT_FLOAT := by
  simp only [makeNumber]
  rcases makeNumberLoop l pos "" 0 with ⟨n, d, rest, p2⟩
  by_cases hd : d = 0 <;> simp [hd]

/-- A successful scan always ends in exactly one end-of-input token: the
token list is some EOF-free prefix followed by the EOF token made at the
final position (basic.py 147). -/
theorem lexLoop_success_shape (s : List Char) (p : Position) :
    ∀ ts, lexLoop s p = (ts, none) →
      ∃ ts2 q, ts = ts2 ++ [Token.ofStart TT_EOF q] ∧ ∀ t ∈ ts2, t.type ≠ TT_EOF := by
  induction s, p using lexLoop.induct with
  | case1 pos =>
    intro ts h
    simp only [lexLoop, Prod.mk.injEq] at h
    exact ⟨[], pos, by simp [h.1.symm], by simp⟩
  | case2 c rest pos hw ih =>
    intro ts h
    simp only [lexLoop, hw, if_true] at h
    exact ih ts h
  | case3 c rest pos hw hd tok rest2 pos2 hmk ih =>
    intro ts h
    simp only [lexLoop, hw, hd, if_false, if_true] at h
    rw [hmk] at h
    obtain ⟨ts0, h0, hts⟩ := consToken_eq_none _ _ _ h
    obtain ⟨ts2, q, hsh, hef⟩ := ih ts0 h0
    refine ⟨tok :: ts2, q, by simp [hts, hsh], ?_⟩
    intro t ht
    rcases List.mem_cons.mp ht with h1 | h1
    · subst h1
      rcases makeNumber_type (c :: rest) pos with h2 | h2 <;> rw [hmk] at h2
      · have h3 : t.type = TT_INT := h2
        simp [h3]
      · have h3 : t.type = TT_FLOAT := h2
        simp [h3]
    · exact hef t h1
  | case4 rest pos h1 h2 ih =>
    intro ts h
    simp only [lexLoop, h1, h2, if_false, if_true] at h
    obtain ⟨ts0, h0, hts⟩ := consToken_eq_none _ _ _ h
    obtain ⟨ts2, q, hsh, hef⟩ := ih ts0 h0
    refine ⟨Token.ofStart TT_PLUS pos :: ts2, q, by simp [hts, hsh], ?_⟩
    intro t ht
    rcases List.mem_cons.mp ht with h1 | h1
    · subst h1; simp [Token.ofStart]
    · exact hef t h1
  | case5 rest pos h1 h2 h3 ih =>
    intro ts h
    simp only [lexLoop, h1, h2, h3, if_false, if_true] at h
    obtain ⟨ts0, h0, hts⟩ := consToken_eq_none _ _ _ h
    obtain ⟨ts2, q, hsh, hef⟩ := ih ts0 h0
    refine ⟨Token.ofStart TT_MINUS pos :: ts2, q, by simp [hts, hsh], ?_⟩
    intro t ht
    rcases List.mem_cons.mp ht with h1 | h1
    · subst h1; simp [Token.ofStart]
    · exact hef t h1
  | case6 rest pos h1 h2 h3 h4 ih =>
    intro ts h
    simp only [lexLoop, h1, h2, h3, h4, if_false, if_true] at h
    obtain ⟨ts0, h0, hts⟩ := consToken_eq_none _ _ _ h
    obtain ⟨ts2, q, hsh, hef⟩ := ih ts0 h0
    refine ⟨Token.ofStart TT_MUL pos :: ts2, q, by simp [hts, hsh], ?_⟩
    intro t ht
    rcases List.mem_cons.mp ht with h1 | h1
    · subst h1; simp [Token.ofStart]
    · exact hef t h1
  | case7 rest pos h1 h2 h3 h4 h5 ih =>
    intro ts h
    simp only [lexLoop, h1, h2, h3, h4, h5, if_false, if_true] at h
    obtain ⟨ts0, h0, hts⟩ := consToken_eq_none _ _ _ h
    obtain ⟨ts2, q, hsh, hef⟩ := ih ts0 h0
    refine ⟨Token.ofStart TT_DIV pos :: ts2, q, by simp [hts, hsh], ?_⟩
    intro t ht
    rcases List.mem_cons.mp ht with h1 | h1
    · subst h1; simp [Token.ofStart]
    · exact hef t h1
  | case8 rest pos h1 h2 h3 h4 h5 h6 ih =>
    intro ts h
    simp only [lexLoop, h1, h2, h3, h4, h5, h6, if_false, if_true] at h
    obtain ⟨ts0, h0, hts⟩ := consToken_eq_none _ _ _ h
    obtain ⟨ts2, q, hsh, hef⟩ := ih ts0 h0
    refine ⟨Token.ofStart TT_LPAREN pos :: ts2, q, by simp [hts, hsh], ?_⟩
    intro t ht
    rcases List.mem_cons.mp ht with h1 | h1
    · subst h1; simp [Token.ofStart]
    · exact hef t h1
  | case9 rest pos h1 h2 h3 h4 h5 h6 h7 ih =>
    intro ts h
    simp only [lexLoop, h1, h2, h3, h4, h5, h6, h7, if_false, if_true] at h
    obtain ⟨ts0, h0, hts⟩ := consToken_eq_none _ _ _ h
    obtain ⟨ts2, q, hsh, hef⟩ := ih ts0 h0
    refine ⟨Token.ofStart TT_RPAREN pos :: ts2, q, by simp [hts, hsh], ?_⟩
    intro t ht
    rcases List.mem_cons.mp ht with h1 | h1
    · subst h1; simp [Token.ofStart]
    · exact hef t h1
  | case10 c rest pos h1 h2 h3 h4 h5 h6 h7 h8 =>
    intro ts h
    simp [lexLoop, h1, h2, h3, h4, h5, h6, h7, h8] at h

/-! ### Concrete claims and counterexamples -/

/-- C2: multiplication and division bind tighter than addition and
subtraction: "2 + 3 * 4" parses to `(2 + (3 * 4))` and "2 * 3 + 4" parses to
`((2 * 3) + 4)`, with no error. -/
theorem claim_C2_precedence :
    (run "<stdin>" "2 + 3 * 4").map (fun p => (p.1.shape, p.2)) =
      some (.binShape (.numShape TT_INT (some (.intVal 2))) TT_PLUS
        (.binShape (.numShape TT_INT (some (.intVal 3))) TT_MUL
          (.numShape TT_INT (some (.intVal 4)))), none) ∧
    (run "<stdin>" "2 * 3 + 4").map (fun p => (p.1.shape, p.2)) =
      some (.binShape (.binShape (.numShape TT_INT (some (.intVal 2))) TT_MUL
        (.numShape TT_INT (some (.intVal 3)))) TT_PLUS
          (.numShape TT_INT (some (.intVal 4))), none) := by
  constructor <;>
    simp [run, makeTokens, lexLoop, makeNumber, makeNumberLoop, consToken, parseF, exprF,
      binOpF, binOpLoopF, factorF, Parser.advance, Parser.init, parseFuel, Position.advance,
      Token.ofStart, Node.shape, intValue, digitsVal, WHITESPACE, DIGITS]

/-- C6: lexing "1.2.3", `make_number` first produces a FLOAT token of value
1.2 (the rational 6/5) whose span ends at index 3, before the second dot,
leaving `".3"` unconsumed; `make_tokens` then hits that second dot and
returns an Illegal Character error spanning exactly indices 3 to 4, with an
empty token list. -/
theorem claim_C6_second_dot_leniency :
    makeNumber "1.2.3".data ⟨0, 0, 0, "<stdin>", "1.2.3"⟩ =
      (⟨TT_FLOAT, some (.floatVal (6 / 5)), ⟨0, 0, 0, "<stdin>", "1.2.3"⟩,
        ⟨3, 0, 3, "<stdin>", "1.2.3"⟩⟩, ['.', '3'], ⟨3, 0, 3, "<stdin>", "1.2.3"⟩) ∧
    (makeTokens "<stdin>" "1.2.3").1 = [] ∧
    (makeTokens "<stdin>" "1.2.3").2.map (fun e => (e.error_name, e.pos_start.idx, e.pos_end.idx)) =
      some ("Illegal Character", 3, 4) := by
  refine ⟨?_, ?_, ?_⟩ <;>
    simp [makeTokens, lexLoop, makeNumber, makeNumberLoop, consToken, Position.advance,
      Token.ofStart, floatValue, digitsVal, IllegalCharError, WHITESPACE, DIGITS]
  norm_num

/-- C9: parsing "(1 + 2" fails with an Invalid Syntax error whose message is
"Expected ')'" and whose span is exactly the span of the end-of-input token
(indices 6 to 7), the AST slot being empty. -/
theorem claim_C9_unmatched_paren :
    (makeTokens "<stdin>" "(1 + 2").1.getLast? =
      some (Token.ofStart TT_EOF ⟨6, 0, 6, "<stdin>", "(1 + 2"⟩) ∧
    run "<stdin>" "(1 + 2" =
      some (.noneNode, some (InvalidSyntaxError
        (Token.ofStart TT_EOF ⟨6, 0, 6, "<stdin>", "(1 + 2"⟩).pos_start
        (Token.ofStart TT_EOF ⟨6, 0, 6, "<stdin>", "(1 + 2"⟩).pos_end "Expected ')'")) := by
  constructor <;>
    simp [run, makeTokens, lexLoop, makeNumber, makeNumberLoop, consToken, parseF, exprF,
      binOpF, binOpLoopF, factorF, Parser.advance, Parser.init, parseFuel, Position.advance,
      Token.ofStart, intValue, digitsVal, InvalidSyntaxError, WHITESPACE, DIGITS]

/-- C1 counterexample: on "1 + 2 )" `run` returns a fully built AST for
`1 + 2` AND the Invalid Syntax trailing-input error at the same time, so it
is not true that exactly one of the two slots is populated. -/
theorem claim_C1_counterexample :
    (run "<stdin>" "1 + 2 )").map (fun p => (p.1.shape, p.2.map Error.details)) =
      some (.binShape (.numShape TT_INT (some (.intVal 1))) TT_PLUS
        (.numShape TT_INT (some (.intVal 2))),
        some "Expected '+', '-', '*', '/' or EOF") := by
  simp [run, makeTokens, lexLoop, makeNumber, makeNumberLoop, consToken, parseF, exprF,
    binOpF, binOpLoopF, factorF, Parser.advance, Parser.init, parseFuel, Position.advance,
    Token.ofStart, Node.shape, intValue, digitsVal, InvalidSyntaxError, WHITESPACE, DIGITS]

/-! ### Numeric-literal inputs (C5) -/

/-- The position after stepping past each character of `l` in turn. -/
def posAfter (p : Position) (l : List Char) : Position :=
  l.foldl (fun q c => q.advance (some c)) p

/-- When every character is a digit or a dot and the dot budget is not
exceeded, `make_number`'s loop consumes the whole input, accumulating
exactly those characters. -/
theorem makeNumberLoop_all_consumed :
    ∀ (xs : List Char) (p : Position) (n : String) (d : Nat),
      (∀ x ∈ xs, x ∈ (DIGITS ++ ".").data) → d + xs.count '.' ≤ 1 →
      makeNumberLoop xs p n d = (n ++ ⟨xs⟩, d + xs.count '.', [], posAfter p xs) := by
  intro xs
  induction xs with
  | nil =>
    intro p n d _ _
    have hn : n ++ (⟨[]⟩ : String) = n := by
      apply String.ext; simp [String.data_append]
    simp [makeNumberLoop, posAfter, hn]
  | cons c rest ih =>
    intro p n d hall hcnt
    have hc : c ∈ (DIGITS ++ ".").data := hall c (List.mem_cons_self c rest)
    by_cases hdot : c = '.'
    · subst hdot
      have hcc : List.count '.' ('.' :: rest) = List.count '.' rest + 1 := by
        simp [List.count_cons]
      have hd0 : d = 0 := by omega
      subst hd0
      have hr := ih (p.advance (some '.')) (n ++ ".") 1
        (fun x hx => hall x (List.mem_cons_of_mem _ hx)) (by omega)
      have hstep : makeNumberLoop ('.' :: rest) p n 0 =
          makeNumberLoop rest (p.advance (some '.')) (n ++ ".") 1 := by
        simp [makeNumberLoop]
      rw [hstep, hr]
      have hs1 : (n ++ ".") ++ (⟨rest⟩ : String) = n ++ ⟨'.' :: rest⟩ := by
        apply String.ext; simp [String.data_append]
      have hp1 : posAfter (p.advance (some '.')) rest = posAfter p ('.' :: rest) := by
        simp [posAfter]
      have harith : 1 + List.count '.' rest = 0 + List.count '.' ('.' :: rest) := by omega
      rw [hs1, hp1, harith]
    · have hcc : List.count '.' (c :: rest) = List.count '.' rest := by
        simp [List.count_cons, hdot]
      have hr := ih (p.advance (some c)) (n.push c) d
        (fun x hx => hall x (List.mem_cons_of_mem _ hx)) (by omega)
      have hstep : makeNumberLoop (c :: rest) p n d =
          makeNumberLoop rest (p.advance (some c)) (n.push c) d := by
        simp only [makeNumberLoop]
        rw [if_pos hc, if_neg hdot]
      rw [hstep, hr]
      have hs1 : (n.push c) ++ (⟨rest⟩ : String) = n ++ ⟨c :: rest⟩ := by
        apply String.ext; simp [String.data_append, String.data_push]
      have hp1 : posAfter (p.advance (some c)) rest = posAfter p (c :: rest) := by
        simp [posAfter]
      have harith : d + List.count '.' rest = d + List.count '.' (c :: rest) := by omega
      rw [hs1, hp1, harith]

/-- Unfolding the scan at a digit: a numeric literal is produced and the
scan continues after it. -/
theorem lexLoop_digit_step (c : Char) (rest : List Char) (pos : Position)
    (hws : c ∉ WHITESPACE.data) (hd : c ∈ DIGITS.data) :
    lexLoop (c :: rest) pos = consToken (makeNumber (c :: rest) pos).1
      (lexLoop (makeNumber (c :: rest) pos).2.1 (makeNumber (c :: rest) pos).2.2) := by
  simp only [lexLoop]
  rw [if_neg hws, if_pos hd]

/-- Digits are not whitespace. -/
theorem digit_not_ws (c : Char) (hc : c ∈ DIGITS.data) : c ∉ WHITESPACE.data := by
  have h10 : ∀ x ∈ DIGITS.data, x ∉ WHITESPACE.data := by decide
  exact h10 c hc

/-- C5 counterexample: the input "." consists only of characters drawn from
the digits and at most one '.', yet tokenization does not succeed with a
number token: it returns an Illegal Character error and no tokens, because
the scanner only enters a numeric literal on a digit. -/
theorem claim_C5_counterexample :
    (∀ c ∈ ".".data, c ∈ (DIGITS ++ ".").data) ∧ ".".data.count '.' ≤ 1 ∧
    (makeTokens "<stdin>" ".").1 = [] ∧
    (makeTokens "<stdin>" ".").2.map Error.error_name = some "Illegal Character" := by
  refine ⟨by decide, by decide, ?_, ?_⟩ <;>
    simp only [makeTokens, lexLoop] <;> decide

/-- C5 amended: for every nonempty input whose first character is a decimal
digit, consisting only of digits and at most one '.', tokenization succeeds
and yields exactly one INT (no dot, value the integer parse of the string)
or FLOAT (one dot, value the decimal parse of the string) token, followed by
exactly one end-of-input token.  (The original claim quantified over all
digit-and-dot strings; it fails on "." and ".5", where the scanner never
enters a numeric literal and reports an Illegal Character error instead.)
The number token's `pos_end` field is left unspecified: in the source it is
a reference to the lexer's live position, which keeps moving after the token
is created, so its content in the returned list is not the literal's end;
the token's type, its value, its copied `pos_start` and the end-of-input
token are the faithful observables. -/
theorem claim_C5_amended (fn s : String) (c : Char) (rest : List Char)
    (hs : s.data = c :: rest) (hc : c ∈ DIGITS.data)
    (hall : ∀ x ∈ s.data, x ∈ (DIGITS ++ ".").data)
    (hcnt : s.data.count '.' ≤ 1) :
    ∃ pe : Position,
      makeTokens fn s =
        ([⟨(if s.data.count '.' = 0 then TT_INT else TT_FLOAT),
           some (if s.data.count '.' = 0 then TokenValue.intVal (intValue s)
                 else TokenValue.floatVal (floatValue s)),
           ⟨0, 0, 0, fn, s⟩, pe⟩,
          Token.ofStart TT_EOF (posAfter ⟨0, 0, 0, fn, s⟩ s.data)], none) := by
  refine ⟨posAfter ⟨0, 0, 0, fn, s⟩ s.data, ?_⟩
  have hws : c ∉ WHITESPACE.data := digit_not_ws c hc
  have hdata : ∀ x ∈ (c :: rest), x ∈ (DIGITS ++ ".").data := by
    rw [← hs]; exact hall
  have hkeq : (c :: rest).count '.' = s.data.count '.' := by rw [hs]
  have hml := makeNumberLoop_all_consumed (c :: rest) ⟨0, 0, 0, fn, s⟩ "" 0 hdata
    (by omega)
  have hmkstr : "" ++ (⟨c :: rest⟩ : String) = s := by
    apply String.ext; simp [hs]
  have hmk : makeNumber (c :: rest) ⟨0, 0, 0, fn, s⟩ =
      (⟨(if s.data.count '.' = 0 then TT_INT else TT_FLOAT),
        some (if s.data.count '.' = 0 then TokenValue.intVal (intValue s)
              else TokenValue.floatVal (floatValue s)),
        ⟨0, 0, 0, fn, s⟩, posAfter ⟨0, 0, 0, fn, s⟩ (c :: rest)⟩, [],
        posAfter ⟨0, 0, 0, fn, s⟩ (c :: rest)) := by
    simp only [makeNumber, hml, hmkstr, Nat.zero_add]
    rw [hkeq]
    by_cases h0 : s.data.count '.' = 0 <;> simp [h0]
  unfold makeTokens
  rw [hs, lexLoop_digit_step c rest ⟨0, 0, 0, fn, s⟩ hws hc, hmk]
  simp [consToken, lexLoop, hkeq]

/-- C5 witness: the amended statement at the concrete inputs is nonvacuous,
e.g. at "3.5". -/
theorem claim_C5_amended_witness :
    ∃ pe : Position,
      makeTokens "<stdin>" "3.5" =
        ([⟨(if "3.5".data.count '.' = 0 then TT_INT else TT_FLOAT),
           some (if "3.5".data.count '.' = 0 then TokenValue.intVal (intValue "3.5")
                 else TokenValue.floatVal (floatValue "3.5")),
           ⟨0, 0, 0, "<stdin>", "3.5"⟩, pe⟩,
          Token.ofStart TT_EOF (posAfter ⟨0, 0, 0, "<stdin>", "3.5"⟩ "3.5".data)], none) :=
  claim_C5_amended "<stdin>" "3.5" '3' ['.', '5'] (by decide) (by decide) (by decide)
    (by decide)

/-! ### The end-of-input token's span (C8) -/

/-- C8 counterexample: lexing the empty input, the appended end-of-input
token has start index 0 and end index 1 — its end position is its start
position advanced once, so the span is not zero-width. -/
theorem claim_C8_counterexample :
    makeTokens "<stdin>" "" = ([Token.ofStart TT_EOF ⟨0, 0, 0, "<stdin>", ""⟩], none) ∧
    (Token.ofStart TT_EOF (⟨0, 0, 0, "<stdin>", ""⟩ : Position)).pos_start.idx = 0 ∧
    (Token.ofStart TT_EOF (⟨0, 0, 0, "<stdin>", ""⟩ : Position)).pos_end.idx = 1 ∧
    (Token.ofStart TT_EOF (⟨0, 0, 0, "<stdin>", ""⟩ : Position)).pos_start ≠
      (Token.ofStart TT_EOF (⟨0, 0, 0, "<stdin>", ""⟩ : Position)).pos_end := by
  refine ⟨?_, by decide, by decide, by decide⟩
  simp [makeTokens, lexLoop]

/-- C8 amended: on every successful tokenization the last token is the
end-of-input token, and its span is one position wide, like every other
single-character token: its end position is its start position advanced
once, so the end index is the start index plus one and the two positions are
not equal (the span is not zero-width). -/
theorem claim_C8_amended (fn s : String) (ts : List Token)
    (h : makeTokens fn s = (ts, none)) :
    ∃ t, ts.getLast? = some t ∧ t.type = TT_EOF ∧
      t.pos_end = t.pos_start.advance none ∧
      t.pos_end.idx = t.pos_start.idx + 1 ∧ t.pos_start ≠ t.pos_end := by
  obtain ⟨ts2, q, hsh, -⟩ := lexLoop_success_shape s.data ⟨0, 0, 0, fn, s⟩ ts h
  refine ⟨Token.ofStart TT_EOF q, ?_, rfl, rfl, ?_, ?_⟩
  · rw [hsh, List.getLast?_concat]
  · simp [Token.ofStart, Position.advance]
  · intro hcon
    have := congrArg Position.idx hcon
    simp [Token.ofStart, Position.advance] at this

/-- Witness for C8 at the concrete input "": tokenization yields exactly
the end-of-input token and its span is one position wide. -/
theorem claim_C8_amended_witness :
    ∃ t, ([Token.ofStart TT_EOF ⟨0, 0, 0, "<stdin>", ""⟩] : List Token).getLast? = some t ∧
      t.type = TT_EOF ∧ t.pos_end = t.pos_start.advance none ∧
      t.pos_end.idx = t.pos_start.idx + 1 ∧ t.pos_start ≠ t.pos_end :=
  claim_C8_amended "<stdin>" "" [Token.ofStart TT_EOF ⟨0, 0, 0, "<stdin>", ""⟩]
    (by simp [makeTokens, lexLoop])

/-! ### Illegal characters (C7) -/

/-- The character set of the claim: decimal digits, '.', the four operator
characters, the two parentheses, and whitespace. -/
def legalChars : List Char := (DIGITS ++ ".+-*/()" ++ WHITESPACE).data

/-- Advancing always moves the index (and thus a span endpoint) one step. -/
theorem Position.advance_idx (p : Position) (c : Option Char) :
    (p.advance c).idx = p.idx + 1 := by
  simp only [Position.advance]
  split <;> rfl

/-- Spec of the `make_number` scan needed to track positions: it consumes a
prefix of digit-or-dot characters, and its final position advances by
exactly the consumed characters. -/
theorem makeNumberLoop_consumes :
    ∀ (xs : List Char) (p : Position) (n : String) (d : Nat),
      ∃ m, m ≤ xs.length ∧ (makeNumberLoop xs p n d).2.2.1 = xs.drop m ∧
        (makeNumberLoop xs p n d).2.2.2.idx = p.idx + m ∧
        ∀ j < m, ∀ x, xs.get? j = some x → x ∈ (DIGITS ++ ".").data := by
  intro xs
  induction xs with
  | nil =>
    intro p n d
    exact ⟨0, by simp [makeNumberLoop], by simp [makeNumberLoop], by simp [makeNumberLoop],
      by omega⟩
  | cons c rest ih =>
    intro p n d
    by_cases hc : c ∈ (DIGITS ++ ".").data
    · by_cases hdot : c = '.'
      · subst hdot
        by_cases hd1 : d = 1
        · refine ⟨0, by omega, ?_, ?_, by omega⟩ <;>
            simp [makeNumberLoop, hc, hd1]
        · obtain ⟨m, hm, hrest, hidx, hleg⟩ := ih (p.advance (some '.')) (n ++ ".") (d + 1)
          have hstep : makeNumberLoop ('.' :: rest) p n d =
              makeNumberLoop rest (p.advance (some '.')) (n ++ ".") (d + 1) := by
            simp only [makeNumberLoop]
            simp [hd1]
          refine ⟨m + 1, by simpa using Nat.succ_le_succ hm, ?_, ?_, ?_⟩
          · rw [hstep]; simpa using hrest
          · rw [hstep]
            have hadv : (p.advance (some '.')).idx = p.idx + 1 := Position.advance_idx p _
            omega
          · intro j hj x hx
            match j, hx with
            | 0, hx => exact (by simpa using hx.symm : x = '.') ▸ hc
            | j' + 1, hx => exact hleg j' (by omega) x (by simpa using hx)
      · obtain ⟨m, hm, hrest, hidx, hleg⟩ := ih (p.advance (some c)) (n.push c) d
        have hstep : makeNumberLoop (c :: rest) p n d =
            makeNumberLoop rest (p.advance (some c)) (n.push c) d := by
          simp only [makeNumberLoop]
          rw [if_pos hc, if_neg hdot]
        refine ⟨m + 1, by simpa using Nat.succ_le_succ hm, ?_, ?_, ?_⟩
        · rw [hstep]; simpa using hrest
        · rw [hstep]
          have hadv : (p.advance (some c)).idx = p.idx + 1 := Position.advance_idx p _
          omega
        · intro j hj x hx
          match j, hx with
          | 0, hx => exact (by simpa using hx : c = x) ▸ hc
          | j' + 1, hx => exact hleg j' (by omega) x (by simpa using hx)
    · have hstep : makeNumberLoop (c :: rest) p n d = (n, d, c :: rest, p) := by
        simp only [makeNumberLoop]
        rw [if_neg hc]
      refine ⟨0, by omega, ?_, ?_, by omega⟩ <;> rw [hstep] <;> simp

theorem makeNumber_snd (l : List Char) (p : Position) :
    (makeNumber l p).2.1 = (makeNumberLoop l p "" 0).2.2.1 ∧
    (makeNumber l p).2.2 = (makeNumberLoop l p "" 0).2.2.2 := by
  simp only [makeNumber]
  rcases h : makeNumberLoop l p "" 0 with ⟨n, d, r, q⟩
  by_cases hd : d = 0 <;> simp [hd]

theorem ws_legal : ∀ x ∈ WHITESPACE.data, x ∈ legalChars := by decide

theorem digitdot_legal : ∀ x ∈ (DIGITS ++ ".").data, x ∈ legalChars := by decide

/-- If the remaining input holds any character outside the legal set, the
scan fails: it returns no tokens and an Illegal Character error whose
one-character span sits at the first position where no token can start;
every character before that position is from the legal set, and the
character under the span is either outside the legal set or a '.' that did
not continue a numeric literal. -/
theorem lexLoop_illegal (s : List Char) (p : Position) :
    (∃ c ∈ s, c ∉ legalChars) →
    ∃ e k, lexLoop s p = ([], some e) ∧ e.error_name = "Illegal Character" ∧
      e.pos_start.idx = p.idx + k ∧ e.pos_end.idx = p.idx + k + 1 ∧ k < s.length ∧
      (∀ x, s.get? k = some x → x ∉ legalChars ∨ x = '.') ∧
      (∀ j < k, ∀ x, s.get? j = some x → x ∈ legalChars) := by
  induction s, p using lexLoop.induct with
  | case1 pos =>
    rintro ⟨c, hc, -⟩
    simp at hc
  | case2 c rest pos hw ih =>
    rintro ⟨x, hx, hxil⟩
    have hcleg : c ∈ legalChars := ws_legal c hw
    have hxr : x ∈ rest := by
      rcases List.mem_cons.mp hx with h | h
      · exact absurd (h ▸ hcleg) hxil
      · exact h
    obtain ⟨e, k, hlex, hname, hst, hen, hk, hat, hpre⟩ := ih ⟨x, hxr, hxil⟩
    have hstep : lexLoop (c :: rest) pos = lexLoop rest (pos.advance (some c)) := by
      simp only [lexLoop]
      rw [if_pos hw]
    have hadv : (pos.advance (some c)).idx = pos.idx + 1 := Position.advance_idx pos _
    refine ⟨e, k + 1, by rw [hstep]; exact hlex, hname, by omega, by omega,
      by simp; omega, ?_, ?_⟩
    · intro y hy
      exact hat y (by simpa using hy)
    · intro j hj y hy
      match j, hy with
      | 0, hy => exact (by simpa using hy.symm : y = c) ▸ hcleg
      | j' + 1, hy => exact hpre j' (by omega) y (by simpa using hy)
  | case3 c rest pos hw hd tok rest2 pos2 hmk ih =>
    rintro ⟨x, hx, hxil⟩
    obtain ⟨m, hm, hrest, hidx, hleg⟩ := makeNumberLoop_consumes (c :: rest) pos "" 0
    obtain ⟨hsnd1, hsnd2⟩ := makeNumber_snd (c :: rest) pos
    rw [hmk] at hsnd1 hsnd2
    have hrest2 : rest2 = (c :: rest).drop m := by rw [← hrest]; exact hsnd1
    have hpos2 : pos2.idx = pos.idx + m := by
      rw [← hidx]; exact congrArg Position.idx hsnd2
    have hxr : x ∈ rest2 := by
      have hsplit := List.take_append_drop m (c :: rest)
      rw [← hsplit] at hx
      rcases List.mem_append.mp hx with h | h
      · exfalso
        obtain ⟨j, hj⟩ := List.mem_iff_get?.mp h
        have hjlt : j < m := by
          obtain ⟨hlt, -⟩ := List.get?_eq_some.mp hj
          have hlen : ((c :: rest).take m).length ≤ m := by
            simp [List.length_take]
          omega
        have : (c :: rest).get? j = some x := by
          rw [← List.get?_take hjlt]
          exact hj
        exact absurd (digitdot_legal x (hleg j hjlt x this)) hxil
      · rw [hrest2]
        exact h
    obtain ⟨e, k, hlex, hname, hst, hen, hk, hat, hpre⟩ := ih ⟨x, hxr, hxil⟩
    have hstep : lexLoop (c :: rest) pos = consToken tok (lexLoop rest2 pos2) := by
      rw [lexLoop_digit_step c rest pos hw hd, hmk]
    have hlen2 : rest2.length = (c :: rest).length - m := by
      rw [hrest2, List.length_drop]
    refine ⟨e, m + k, ?_, hname, by omega, by omega, by omega, ?_, ?_⟩
    · rw [hstep, hlex]
      rfl
    · intro y hy
      refine hat y ?_
      rw [hrest2, List.get?_drop]
      exact hy
    · intro j hj y hy
      by_cases hjm : j < m
      · exact digitdot_legal y (hleg j hjm y hy)
      · have hkd : rest2.get? (j - m) = some y := by
          rw [hrest2, List.get?_drop]
          have : m + (j - m) = j := by omega
          rw [this]
          exact hy
        exact hpre (j - m) (by omega) y hkd
  | case4 rest pos h1 h2 ih =>
    rintro ⟨x, hx, hxil⟩
    have hcleg : ('+' : Char) ∈ legalChars := by decide
    have hxr : x ∈ rest := by
      rcases List.mem_cons.mp hx with h | h
      · exact absurd (h ▸ hcleg) hxil
      · exact h
    obtain ⟨e, k, hlex, hname, hst, hen, hk, hat, hpre⟩ := ih ⟨x, hxr, hxil⟩
    have hstep : lexLoop ('+' :: rest) pos =
        consToken (Token.ofStart TT_PLUS pos) (lexLoop rest (pos.advance (some '+'))) := by
      simp only [lexLoop]
      rw [if_neg h1, if_neg h2]
      simp
    have hadv : (pos.advance (some '+')).idx = pos.idx + 1 := Position.advance_idx pos _
    refine ⟨e, k + 1, by rw [hstep, hlex]; rfl, hname, by omega, by omega,
      by simp; omega, ?_, ?_⟩
    · intro y hy
      exact hat y (by simpa using hy)
    · intro j hj y hy
      match j, hy with
      | 0, hy => exact (by simpa using hy.symm : y = '+') ▸ hcleg
      | j' + 1, hy => exact hpre j' (by omega) y (by simpa using hy)
  | case5 rest pos h1 h2 h3 ih =>
    rintro ⟨x, hx, hxil⟩
    have hcleg : ('-' : Char) ∈ legalChars := by decide
    have hxr : x ∈ rest := by
      rcases List.mem_cons.mp hx with h | h
      · exact absurd (h ▸ hcleg) hxil
      · exact h
    obtain ⟨e, k, hlex, hname, hst, hen, hk, hat, hpre⟩ := ih ⟨x, hxr, hxil⟩
    have hstep : lexLoop ('-' :: rest) pos =
        consToken (Token.ofStart TT_MINUS pos) (lexLoop rest (pos.advance (some '-'))) := by
      simp only [lexLoop]
      rw [if_neg h1, if_neg h2, if_neg h3]
      simp
    have hadv : (pos.advance (some '-')).idx = pos.idx + 1 := Position.advance_idx pos _
    refine ⟨e, k + 1, by rw [hstep, hlex]; rfl, hname, by omega, by omega,
      by simp; omega, ?_, ?_⟩
    · intro y hy
      exact hat y (by simpa using hy)
    · intro j hj y hy
      match j, hy with
      | 0, hy => exact (by simpa using hy.symm : y = '-') ▸ hcleg
      | j' + 1, hy => exact hpre j' (by omega) y (by simpa using hy)
  | case6 rest pos h1 h2 h3 h4 ih =>
    rintro ⟨x, hx, hxil⟩
    have hcleg : ('*' : Char) ∈ legalChars := by decide
    have hxr : x ∈ rest := by
      rcases List.mem_cons.mp hx with h | h
      · exact absurd (h ▸ hcleg) hxil
      · exact h
    obtain ⟨e, k, hlex, hname, hst, hen, hk, hat, hpre⟩ := ih ⟨x, hxr, hxil⟩
    have hstep : lexLoop ('*' :: rest) pos =
        consToken (Token.ofStart TT_MUL pos) (lexLoop rest (pos.advance (some '*'))) := by
      simp only [lexLoop]
      rw [if_neg h1, if_neg h2, if_neg h3, if_neg h4]
      simp
    have hadv : (pos.advance (some '*')).idx = pos.idx + 1 := Position.advance_idx pos _
    refine ⟨e, k + 1, by rw [hstep, hlex]; rfl, hname, by omega, by omega,
      by simp; omega, ?_, ?_⟩
    · intro y hy
      exact hat y (by simpa using hy)
    · intro j hj y hy
      match j, hy with
      | 0, hy => exact (by simpa using hy.symm : y = '*') ▸ hcleg
      | j' + 1, hy => exact hpre j' (by omega) y (by simpa using hy)
  | case7 rest pos h1 h2 h3 h4 h5 ih =>
    rintro ⟨x, hx, hxil⟩
    have hcleg : ('/' : Char) ∈ legalChars := by decide
    have hxr : x ∈ rest := by
      rcases List.mem_cons.mp hx with h | h
      · exact absurd (h ▸ hcleg) hxil
      · exact h
    obtain ⟨e, k, hlex, hname, hst, hen, hk, hat, hpre⟩ := ih ⟨x, hxr, hxil⟩
    have hstep : lexLoop ('/' :: rest) pos =
        consToken (Token.ofStart TT_DIV pos) (lexLoop rest (pos.advance (some '/'))) := by
      simp only [lexLoop]
      rw [if_neg h1, if_neg h2, if_neg h3, if_neg h4, if_neg h5]
      simp
    have hadv : (pos.advance (some '/')).idx = pos.idx + 1 := Position.advance_idx pos _
    refine ⟨e, k + 1, by rw [hstep, hlex]; rfl, hname, by omega, by omega,
      by simp; omega, ?_, ?_⟩
    · intro y hy
      exact hat y (by simpa using hy)
    · intro j hj y hy
      match j, hy with
      | 0, hy => exact (by simpa using hy.symm : y = '/') ▸ hcleg
      | j' + 1, hy => exact hpre j' (by omega) y (by simpa using hy)
  | case8 rest pos h1 h2 h3 h4 h5 h6 ih =>
    rintro ⟨x, hx, hxil⟩
    have hcleg : ('(' : Char) ∈ legalChars := by decide
    have hxr : x ∈ rest := by
      rcases List.mem_cons.mp hx with h | h
      · exact absurd (h ▸ hcleg) hxil
      · exact h
    obtain ⟨e, k, hlex, hname, hst, hen, hk, hat, hpre⟩ := ih ⟨x, hxr, hxil⟩
    have hstep : lexLoop ('(' :: rest) pos =
        consToken (Token.ofStart TT_LPAREN pos) (lexLoop rest (pos.advance (some '('))) := by
      simp only [lexLoop]
      rw [if_neg h1, if_neg h2, if_neg h3, if_neg h4, if_neg h5, if_neg h6]
      simp
    have hadv : (pos.advance (some '(')).idx = pos.idx + 1 := Position.advance_idx pos _
    refine ⟨e, k + 1, by rw [hstep, hlex]; rfl, hname, by omega, by omega,
      by simp; omega, ?_, ?_⟩
    · intro y hy
      exact hat y (by simpa using hy)
    · intro j hj y hy
      match j, hy with
      | 0, hy => exact (by simpa using hy.symm : y = '(') ▸ hcleg
      | j' + 1, hy => exact hpre j' (by omega) y (by simpa using hy)
  | case9 rest pos h1 h2 h3 h4 h5 h6 h7 ih =>
    rintro ⟨x, hx, hxil⟩
    have hcleg : (')' : Char) ∈ legalChars := by decide
    have hxr : x ∈ rest := by
      rcases List.mem_cons.mp hx with h | h
      · exact absurd (h ▸ hcleg) hxil
      · exact h
    obtain ⟨e, k, hlex, hname, hst, hen, hk, hat, hpre⟩ := ih ⟨x, hxr, hxil⟩
    have hstep : lexLoop (')' :: rest) pos =
        consToken (Token.ofStart TT_RPAREN pos) (lexLoop rest (pos.advance (some ')'))) := by
      simp only [lexLoop]
      rw [if_neg h1, if_neg h2, if_neg h3, if_neg h4, if_neg h5, if_neg h6, if_neg h7]
      simp
    have hadv : (pos.advance (some ')')).idx = pos.idx + 1 := Position.advance_idx pos _
    refine ⟨e, k + 1, by rw [hstep, hlex]; rfl, hname, by omega, by omega,
      by simp; omega, ?_, ?_⟩
    · intro y hy
      exact hat y (by simpa using hy)
    · intro j hj y hy
      match j, hy with
      | 0, hy => exact (by simpa using hy.symm : y = ')') ▸ hcleg
      | j' + 1, hy => exact hpre j' (by omega) y (by simpa using hy)
  | case10 c rest pos h1 h2 h3 h4 h5 h6 h7 h8 =>
    intro _
    have hstep : lexLoop (c :: rest) pos =
        ([], some (IllegalCharError pos (pos.advance (some c))
          ("Error on " ++ toString pos.idx ++ " to " ++ toString (pos.advance (some c)).idx ++
            " since '" ++ String.singleton c ++ "' is not a valid token"))) := by
      simp only [lexLoop]
      rw [if_neg h1, if_neg h2, if_neg h3, if_neg h4, if_neg h5, if_neg h6, if_neg h7,
        if_neg h8]
    have hadv : (pos.advance (some c)).idx = pos.idx + 1 := Position.advance_idx pos _
    refine ⟨_, 0, hstep, rfl, by simp [IllegalCharError], by simp [IllegalCharError]; omega,
      by simp, ?_, by omega⟩
    intro y hy
    have hyc : y = c := by simpa using hy.symm
    subst hyc
    by_cases hdot : y = '.'
    · exact Or.inr hdot
    · refine Or.inl ?_
      intro hmem
      have : y ∈ DIGITS.data ∨ y ∈ (".+-*/()").data ∨ y ∈ WHITESPACE.data := by
        have h9 := hmem
        simp only [legalChars, String.data_append, List.mem_append] at h9
        tauto
      rcases this with h | h | h
      · exact h2 h
      · simp only [show (".+-*/()").data = ['.', '+', '-', '*', '/', '(', ')'] from rfl,
          List.mem_cons, List.mem_singleton] at h
        rcases h with h | h | h | h | h | h | h
        · exact hdot h
        · exact h3 h
        · exact h4 h
        · exact h5 h
        · exact h6 h
        · exact h7 h
        · rcases h with h | h
          · exact h8 h
          · simp at h
      · exact h1 h

/-- C7 counterexample: in ".a" the only character outside the legal set is
the 'a' at index 1, yet the Illegal Character error's span covers exactly
index 0 — the '.', a character inside the set — not the outside-set
character's position. -/
theorem claim_C7_counterexample :
    ('.' ∈ legalChars) ∧ ('a' ∉ legalChars) ∧ ".a".data = ['.', 'a'] ∧
    (makeTokens "<stdin>" ".a").1 = [] ∧
    (makeTokens "<stdin>" ".a").2.map (fun e => (e.error_name, e.pos_start.idx, e.pos_end.idx)) =
      some ("Illegal Character", 0, 1) := by
  refine ⟨by decide, by decide, by decide, ?_, ?_⟩ <;>
    simp only [makeTokens, lexLoop] <;> decide

/-- C7 amended: for every input holding a character outside the set
{digits, '.', '+', '-', '*', '/', '(', ')', whitespace}, tokenization fails
with an Illegal Character error and an empty token list; the error's span
covers exactly one character — the first character at which no token can
start — every character before it being inside the set, and the character
under the span being either outside the set or a '.' that did not continue
a numeric literal.  (The original claim placed the span on the outside-set
character itself; that fails on ".a", where the error span covers the
in-set '.' at index 0.) -/
theorem claim_C7_amended (fn s : String)
    (h : ∃ c ∈ s.data, c ∉ legalChars) :
    ∃ e k, makeTokens fn s = ([], some e) ∧ e.error_name = "Illegal Character" ∧
      e.pos_start.idx = k ∧ e.pos_end.idx = k + 1 ∧ k < s.data.length ∧
      (∀ x, s.data.get? k = some x → x ∉ legalChars ∨ x = '.') ∧
      (∀ j < k, ∀ x, s.data.get? j = some x → x ∈ legalChars) := by
  obtain ⟨e, k, h1, h2, h3, h4, h5, h6, h7⟩ := lexLoop_illegal s.data ⟨0, 0, 0, fn, s⟩ h
  exact ⟨e, k, h1, h2, by simpa using h3, by simpa using h4, h5, h6, h7⟩

/-- C7 witness: the amended statement instantiated at "1a". -/
theorem claim_C7_amended_witness :
    (∃ c ∈ "1a".data, c ∉ legalChars) ∧
    (∃ e k, makeTokens "<stdin>" "1a" = ([], some e) ∧ e.error_name = "Illegal Character" ∧
      e.pos_start.idx = k ∧ e.pos_end.idx = k + 1 ∧ k < "1a".data.length ∧
      (∀ x, "1a".data.get? k = some x → x ∉ legalChars ∨ x = '.') ∧
      (∀ j < k, ∀ x, "1a".data.get? j = some x → x ∈ legalChars)) :=
  ⟨by decide, claim_C7_amended "<stdin>" "1a" (by decide)⟩

/-! ### Parser safety (C10) -/

/-- `Parser.advance` keeps `current_tok` assigned once it is assigned. -/
theorem Parser.advance_isSome (st : PState) (h : st.current_tok.isSome) :
    (Parser.advance st).current_tok.isSome := by
  simp only [Parser.advance]
  split
  · rename_i hlt
    rw [List.getElem?_eq_getElem hlt]
    rfl
  · exact h

/-- No parser rule ever crashes from a state whose `current_tok` is
assigned: each rule either runs out of fuel (an artifact of the embedding)
or returns normally, leaving `current_tok` assigned, because `advance`
retains the old token once the cursor passes the end of the list. -/
theorem parser_progress : ∀ f : Nat,
    (∀ st : PState, st.current_tok.isSome →
      factorF f st = .fuelOut ∨
        ∃ res st2, factorF f st = .ok res st2 ∧ st2.current_tok.isSome) ∧
    (∀ (r : BinOpRule) (ops : List TokenType) (st : PState), st.current_tok.isSome →
      binOpF f r ops st = .fuelOut ∨
        ∃ res st2, binOpF f r ops st = .ok res st2 ∧ st2.current_tok.isSome) ∧
    (∀ (r : BinOpRule) (ops : List TokenType) (left : Node) (st : PState),
      st.current_tok.isSome →
      binOpLoopF f r ops left st = .fuelOut ∨
        ∃ res st2, binOpLoopF f r ops left st = .ok res st2 ∧ st2.current_tok.isSome) := by
  intro f
  induction f with
  | zero =>
    exact ⟨fun st h => Or.inl rfl, fun r ops st h => Or.inl rfl,
      fun r ops left st h => Or.inl rfl⟩
  | succ f ih =>
    obtain ⟨ihF, ihB, ihL⟩ := ih
    refine ⟨?_, ?_, ?_⟩
    · intro st h
      obtain ⟨tok, hct⟩ := Option.isSome_iff_exists.mp h
      by_cases h1 : tok.type = TT_PLUS ∨ tok.type = TT_MINUS
      · rcases ihF (Parser.advance st) (Parser.advance_isSome st h) with hsub | ⟨sub, st2, hsub, h2⟩
        · refine Or.inl ?_
          simp only [factorF, hct, if_pos h1, hsub]
        · refine Or.inr ?_
          cases herr : sub.error with
          | some e =>
            exact ⟨⟨.noneNode, some e⟩, st2, by simp only [factorF, hct, if_pos h1, hsub, herr], h2⟩
          | none =>
            exact ⟨⟨.UnaryOpNode tok sub.node, none⟩, st2,
              by simp only [factorF, hct, if_pos h1, hsub, herr], h2⟩
      · by_cases h2 : tok.type = TT_INT ∨ tok.type = TT_FLOAT
        · refine Or.inr ⟨⟨.NumberNode tok, none⟩, Parser.advance st,
            by simp only [factorF, hct, if_neg h1, if_pos h2], Parser.advance_isSome st h⟩
        · by_cases h3 : tok.type = TT_LPAREN
          · rcases ihB .termRule [TT_PLUS, TT_MINUS] (Parser.advance st)
                (Parser.advance_isSome st h) with hsub | ⟨sub, st2, hsub, hs2⟩
            · refine Or.inl ?_
              simp only [factorF, hct, if_neg h1, if_neg h2, if_pos h3, hsub]
            · cases herr : sub.error with
              | some e =>
                refine Or.inr ⟨⟨.noneNode, some e⟩, st2,
                  by simp only [factorF, hct, if_neg h1, if_neg h2, if_pos h3, hsub, herr], hs2⟩
              | none =>
                obtain ⟨ct, hct2⟩ := Option.isSome_iff_exists.mp hs2
                by_cases h4 : ct.type = TT_RPAREN
                · refine Or.inr ⟨⟨sub.node, none⟩, Parser.advance st2,
                    by simp only [factorF, hct, if_neg h1, if_neg h2, if_pos h3, hsub, herr,
                      hct2, if_pos h4], Parser.advance_isSome st2 hs2⟩
                · refine Or.inr ⟨⟨.noneNode,
                    some (InvalidSyntaxError ct.pos_start ct.pos_end "Expected ')'")⟩, st2,
                    by simp only [factorF, hct, if_neg h1, if_neg h2, if_pos h3, hsub, herr,
                      hct2, if_neg h4], hs2⟩
          · refine Or.inr ⟨⟨.noneNode,
              some (InvalidSyntaxError tok.pos_start tok.pos_end "Expected int or float")⟩, st,
              by simp only [factorF, hct, if_neg h1, if_neg h2, if_neg h3], h⟩
    · intro r ops st h
      cases r with
      | factorRule =>
        rcases ihF st h with hsub | ⟨sub, st2, hsub, hs2⟩
        · refine Or.inl ?_
          simp only [binOpF, hsub]
        · cases herr : sub.error with
          | some e =>
            refine Or.inr ⟨⟨.noneNode, some e⟩, st2, by simp only [binOpF, hsub, herr], hs2⟩
          | none =>
            rcases ihL .factorRule ops sub.node st2 hs2 with hl | ⟨res, st3, hl, hs3⟩
            · refine Or.inl ?_
              simp only [binOpF, hsub, herr, hl]
            · refine Or.inr ⟨res, st3, by simp only [binOpF, hsub, herr, hl], hs3⟩
      | termRule =>
        rcases ihB .factorRule [TT_MUL, TT_DIV] st h with hsub | ⟨sub, st2, hsub, hs2⟩
        · refine Or.inl ?_
          simp only [binOpF, hsub]
        · cases herr : sub.error with
          | some e =>
            refine Or.inr ⟨⟨.noneNode, some e⟩, st2, by simp only [binOpF, hsub, herr], hs2⟩
          | none =>
            rcases ihL .termRule ops sub.node st2 hs2 with hl | ⟨res, st3, hl, hs3⟩
            · refine Or.inl ?_
              simp only [binOpF, hsub, herr, hl]
            · refine Or.inr ⟨res, st3, by simp only [binOpF, hsub, herr, hl], hs3⟩
    · intro r ops left st h
      obtain ⟨ct, hct⟩ := Option.isSome_iff_exists.mp h
      by_cases h1 : ct.type ∈ ops
      · cases r with
        | factorRule =>
          rcases ihF (Parser.advance st) (Parser.advance_isSome st h) with
            hsub | ⟨sub, st2, hsub, hs2⟩
          · refine Or.inl ?_
            simp only [binOpLoopF, hct, if_pos h1, hsub]
          · cases herr : sub.error with
            | some e =>
              refine Or.inr ⟨⟨.noneNode, some e⟩, st2,
                by simp only [binOpLoopF, hct, if_pos h1, hsub, herr], hs2⟩
            | none =>
              rcases ihL .factorRule ops (.BinOpNode left ct sub.node) st2 hs2 with
                hl | ⟨res, st3, hl, hs3⟩
              · refine Or.inl ?_
                simp only [binOpLoopF, hct, if_pos h1, hsub, herr, hl]
              · refine Or.inr ⟨res, st3,
                  by simp only [binOpLoopF, hct, if_pos h1, hsub, herr, hl], hs3⟩
        | termRule =>
          rcases ihB .factorRule [TT_MUL, TT_DIV] (Parser.advance st)
              (Parser.advance_isSome st h) with hsub | ⟨sub, st2, hsub, hs2⟩
          · refine Or.inl ?_
            simp only [binOpLoopF, hct, if_pos h1, hsub]
          · cases herr : sub.error with
            | some e =>
              refine Or.inr ⟨⟨.noneNode, some e⟩, st2,
                by simp only [binOpLoopF, hct, if_pos h1, hsub, herr], hs2⟩
            | none =>
              rcases ihL .termRule ops (.BinOpNode left ct sub.node) st2 hs2 with
                hl | ⟨res, st3, hl, hs3⟩
              · refine Or.inl ?_
                simp only [binOpLoopF, hct, if_pos h1, hsub, herr, hl]
              · refine Or.inr ⟨res, st3,
                  by simp only [binOpLoopF, hct, if_pos h1, hsub, herr, hl], hs3⟩
      · exact Or.inr ⟨⟨left, none⟩, st, by simp only [binOpLoopF, hct, if_neg h1], h⟩

/-- C10: (a) every successful tokenization returns a nonempty token list
whose last element is the unique EOF token (EOF occurs nowhere earlier);
(b) `Parser.advance` keeps `current_tok` assigned, and retains it unchanged
once the cursor moves past the end of the list; (c) consequently, on any
lexer-produced token list the parser never crashes by reading an unassigned
`current_tok` — the only way any parser operation could reach outside the
token list — whatever the fuel. -/
theorem claim_C10_safety :
    (∀ fn s ts, makeTokens fn s = (ts, none) →
      ts ≠ [] ∧ ∃ ts2 q, ts = ts2 ++ [Token.ofStart TT_EOF q] ∧
        (Token.ofStart TT_EOF q).type = TT_EOF ∧ ∀ t ∈ ts2, t.type ≠ TT_EOF) ∧
    (∀ st : PState, st.current_tok.isSome → (Parser.advance st).current_tok.isSome) ∧
    (∀ st : PState, st.tokens.length ≤ st.tok_idx + 1 →
      (Parser.advance st).current_tok = st.current_tok) ∧
    (∀ fn s ts, makeTokens fn s = (ts, none) →
      ∀ f, parseF f (Parser.init ts) ≠ .crash) := by
  refine ⟨?_, Parser.advance_isSome, ?_, ?_⟩
  · intro fn s ts h
    obtain ⟨ts2, q, hsh, hef⟩ := lexLoop_success_shape s.data ⟨0, 0, 0, fn, s⟩ ts h
    exact ⟨by simp [hsh], ts2, q, hsh, rfl, hef⟩
  · intro st hlen
    simp only [Parser.advance]
    rw [if_neg (by omega)]
  · intro fn s ts h f
    obtain ⟨ts2, q, hsh, -⟩ := lexLoop_success_shape s.data ⟨0, 0, 0, fn, s⟩ ts h
    have hne : ts ≠ [] := by simp [hsh]
    have hinit : (Parser.init ts).current_tok.isSome := by
      simp only [Parser.init]
      have hlen : 0 < ts.length := by
        cases ts with
        | nil => simp at hne
        | cons a l => simp
      rw [List.getElem?_eq_getElem hlen]
      rfl
    rcases (parser_progress f).2.1 .termRule [TT_PLUS, TT_MINUS] (Parser.init ts) hinit with
      hsub | ⟨res, st2, hsub, hs2⟩
    · simp only [parseF, exprF, hsub]
      simp
    · obtain ⟨ct, hct⟩ := Option.isSome_iff_exists.mp hs2
      cases herr : res.error with
      | some e =>
        simp only [parseF, exprF, hsub, herr]
        simp
      | none =>
        by_cases hty : ct.type = TT_EOF
        · simp only [parseF, exprF, hsub, herr, hct]
          rw [if_neg (by simp [hty])]
          simp
        · simp only [parseF, exprF, hsub, herr, hct]
          rw [if_pos hty]
          simp

/-- The tokens of "1": one INT literal and the end-of-input token. -/
def sampleTokens : List Token :=
  [⟨TT_INT, some (.intVal 1), ⟨0, 0, 0, "<stdin>", "1"⟩, ⟨1, 0, 1, "<stdin>", "1"⟩⟩,
   Token.ofStart TT_EOF ⟨1, 0, 1, "<stdin>", "1"⟩]

/-- C10 witness: the safety statement instantiated on the lexed tokens of
"1", with fuel 9. -/
theorem claim_C10_safety_witness :
    makeTokens "<stdin>" "1" = (sampleTokens, none) ∧
    sampleTokens ≠ [] ∧
    parseF 9 (Parser.init sampleTokens) ≠ .crash := by
  have h : makeTokens "<stdin>" "1" = (sampleTokens, none) := by
    simp [makeTokens, lexLoop, makeNumber, makeNumberLoop, consToken, Position.advance,
      Token.ofStart, intValue, digitsVal, sampleTokens, WHITESPACE, DIGITS]
  exact ⟨h, (claim_C10_safety.1 "<stdin>" "1" sampleTokens h).1,
    claim_C10_safety.2.2.2 "<stdin>" "1" sampleTokens h 9⟩

/-! ### The node/error invariant of parser results (C1) -/

/-- Every rule's result carries an error exactly when it carries no node:
`ParseResult.success` is called only on rule exit with a real node, and
every error path returns before `success` with the node slot still unset.
For the `bin_op` loop this holds provided the accumulated left operand is a
real node. -/
theorem parser_result_inv : ∀ f : Nat,
    (∀ st res st2, factorF f st = .ok res st2 →
      (res.error = none ↔ res.node ≠ .noneNode)) ∧
    (∀ (r : BinOpRule) (ops : List TokenType) st res st2, binOpF f r ops st = .ok res st2 →
      (res.error = none ↔ res.node ≠ .noneNode)) ∧
    (∀ (r : BinOpRule) (ops : List TokenType) (left : Node) st res st2,
      left ≠ Node.noneNode → binOpLoopF f r ops left st = .ok res st2 →
      (res.error = none ↔ res.node ≠ .noneNode)) := by
  intro f
  induction f with
  | zero =>
    refine ⟨?_, ?_, ?_⟩ <;> intros <;> simp_all [factorF, binOpF, binOpLoopF]
  | succ f ih =>
    obtain ⟨ihF, ihB, ihL⟩ := ih
    refine ⟨?_, ?_, ?_⟩
    · intro st res st2 heq
      cases hct : st.current_tok with
      | none => simp only [factorF, hct] at heq; cases heq
      | some tok =>
        simp only [factorF, hct] at heq
        by_cases h1 : tok.type = TT_PLUS ∨ tok.type = TT_MINUS
        · rw [if_pos h1] at heq
          cases hsub : factorF f (Parser.advance st) with
          | ok sub st2' =>
            simp only [hsub] at heq
            cases herr : sub.error with
            | some e =>
              simp only [herr] at heq
              cases heq
              simp
            | none =>
              simp only [herr] at heq
              cases heq
              simp
          | crash => simp only [hsub] at heq; cases heq
          | fuelOut => simp only [hsub] at heq; cases heq
        · rw [if_neg h1] at heq
          by_cases h2 : tok.type = TT_INT ∨ tok.type = TT_FLOAT
          · rw [if_pos h2] at heq
            cases heq
            simp
          · rw [if_neg h2] at heq
            by_cases h3 : tok.type = TT_LPAREN
            · rw [if_pos h3] at heq
              cases hsub : binOpF f .termRule [TT_PLUS, TT_MINUS] (Parser.advance st) with
              | ok sub st2' =>
                simp only [hsub] at heq
                cases herr : sub.error with
                | some e =>
                  simp only [herr] at heq
                  cases heq
                  simp
                | none =>
                  simp only [herr] at heq
                  cases hct2 : st2'.current_tok with
                  | none => simp only [hct2] at heq; cases heq
                  | some ct =>
                    simp only [hct2] at heq
                    by_cases h4 : ct.type = TT_RPAREN
                    · rw [if_pos h4] at heq
                      cases heq
                      have hiff := ihB .termRule [TT_PLUS, TT_MINUS] (Parser.advance st)
                        sub st2' hsub
                      simpa using hiff.mp herr
                    · rw [if_neg h4] at heq
                      cases heq
                      simp
              | crash => simp only [hsub] at heq; cases heq
              | fuelOut => simp only [hsub] at heq; cases heq
            · rw [if_neg h3] at heq
              cases heq
              simp
    · intro r ops st res st2 heq
      cases r with
      | factorRule =>
        simp only [binOpF] at heq
        cases hsub : factorF f st with
        | ok sub st2' =>
          simp only [hsub] at heq
          cases herr : sub.error with
          | some e =>
            simp only [herr] at heq
            cases heq
            simp
          | none =>
            simp only [herr] at heq
            have hn := (ihF st sub st2' hsub).mp herr
            exact ihL .factorRule ops sub.node st2' res st2 hn heq
        | crash => simp only [hsub] at heq; cases heq
        | fuelOut => simp only [hsub] at heq; cases heq
      | termRule =>
        simp only [binOpF] at heq
        cases hsub : binOpF f .factorRule [TT_MUL, TT_DIV] st with
        | ok sub st2' =>
          simp only [hsub] at heq
          cases herr : sub.error with
          | some e =>
            simp only [herr] at heq
            cases heq
            simp
          | none =>
            simp only [herr] at heq
            have hn := (ihB .factorRule [TT_MUL, TT_DIV] st sub st2' hsub).mp herr
            exact ihL .termRule ops sub.node st2' res st2 hn heq
        | crash => simp only [hsub] at heq; cases heq
        | fuelOut => simp only [hsub] at heq; cases heq
    · intro r ops left st res st2 hleft heq
      cases r with
      | factorRule =>
        cases hct : st.current_tok with
        | none => simp only [binOpLoopF, hct] at heq; cases heq
        | some ct =>
          simp only [binOpLoopF, hct] at heq
          by_cases h1 : ct.type ∈ ops
          · rw [if_pos h1] at heq
            cases hsub : factorF f (Parser.advance st) with
            | ok sub st2' =>
              simp only [hsub] at heq
              cases herr : sub.error with
              | some e =>
                simp only [herr] at heq
                cases heq
                simp
              | none =>
                simp only [herr] at heq
                exact ihL .factorRule ops (.BinOpNode left ct sub.node) st2' res st2
                  (by simp) heq
            | crash => simp only [hsub] at heq; cases heq
            | fuelOut => simp only [hsub] at heq; cases heq
          · rw [if_neg h1] at heq
            cases heq
            simpa using hleft
      | termRule =>
        cases hct : st.current_tok with
        | none => simp only [binOpLoopF, hct] at heq; cases heq
        | some ct =>
          simp only [binOpLoopF, hct] at heq
          by_cases h1 : ct.type ∈ ops
          · rw [if_pos h1] at heq
            cases hsub : binOpF f .factorRule [TT_MUL, TT_DIV] (Parser.advance st) with
            | ok sub st2' =>
              simp only [hsub] at heq
              cases herr : sub.error with
              | some e =>
                simp only [herr] at heq
                cases heq
                simp
              | none =>
                simp only [herr] at heq
                exact ihL .termRule ops (.BinOpNode left ct sub.node) st2' res st2
                  (by simp) heq
            | crash => simp only [hsub] at heq; cases heq
            | fuelOut => simp only [hsub] at heq; cases heq
          · rw [if_neg h1] at heq
            cases heq
            simpa using hleft

/-- Case analysis of `Parser.parse`: it returns the expression's result as
is when that result carries an error or the next token is EOF; when the
expression succeeded but the next token is not EOF it adds the trailing
Invalid Syntax error to the result without clearing the node. -/
theorem parseF_ok_cases (f : Nat) (st : PState) (res : ParseResult) (st2 : PState)
    (h : parseF f st = .ok res st2) :
    (∃ res0, exprF f st = .ok res0 st2 ∧ res0.error ≠ none ∧ res = res0) ∨
    (∃ res0 ct, exprF f st = .ok res0 st2 ∧ res0.error = none ∧
      st2.current_tok = some ct ∧ ct.type ≠ TT_EOF ∧
      res = { res0 with
        error := some (InvalidSyntaxError ct.pos_start ct.pos_end
          "Expected '+', '-', '*', '/' or EOF") }) ∨
    (exprF f st = .ok res st2 ∧ res.error = none) := by
  cases hsub : exprF f st with
  | ok res0 st2' =>
    simp only [parseF, hsub] at h
    cases herr : res0.error with
    | some e =>
      simp only [herr] at h
      cases h
      exact Or.inl ⟨res, rfl, by simp [herr], rfl⟩
    | none =>
      simp only [herr] at h
      cases hct : st2'.current_tok with
      | none => simp only [hct] at h; cases h
      | some ct =>
        simp only [hct] at h
        by_cases hty : ct.type = TT_EOF
        · rw [if_neg (by simp [hty])] at h
          cases h
          exact Or.inr (Or.inr ⟨rfl, herr⟩)
        · rw [if_pos hty] at h
          cases h
          exact Or.inr (Or.inl ⟨res0, ct, rfl, herr, hct, hty, rfl⟩)
  | crash => simp only [parseF, hsub] at h; cases h
  | fuelOut => simp only [parseF, hsub] at h; cases h

/-- C1 amended: for every `(source_name, source_text)` on which `run`
returns, at least one of the two slots is populated, and the only way both
are populated is the trailing-input case: the expression itself parsed and
the next token was not EOF, so the node is returned alongside the Invalid
Syntax error "Expected '+', '-', '*', '/' or EOF" (because
`ParseResult.failure` does not clear the node).  On a lexical error the AST
slot is empty and the error slot holds exactly the lexer's error. -/
theorem claim_C1_amended (fn text : String) (n : Node) (e : Option Error)
    (h : run fn text = some (n, e)) :
    ¬(n = .noneNode ∧ e = none) ∧
    (n ≠ .noneNode → e ≠ none →
      ∃ err, e = some err ∧ err.error_name = "Invalid Syntax" ∧
        err.details = "Expected '+', '-', '*', '/' or EOF") ∧
    (∀ err, (makeTokens fn text).2 = some err → n = .noneNode ∧ e = some err) := by
  cases hmt : makeTokens fn text with
  | mk ts oerr =>
    simp only [run, hmt] at h
    cases oerr with
    | some err =>
      simp only [Option.some.injEq, Prod.mk.injEq] at h
      obtain ⟨h1, h2⟩ := h
      subst h1
      subst h2
      refine ⟨by simp, ?_, ?_⟩
      · intro hn _
        exact absurd rfl hn
      · intro err' herr'
        exact ⟨rfl, herr'⟩
    | none =>
      cases hp : parseF (parseFuel ts) (Parser.init ts) with
      | ok res st2 =>
        simp only [hp, Option.some.injEq, Prod.mk.injEq] at h
        obtain ⟨h1, h2⟩ := h
        subst h1
        subst h2
        rcases parseF_ok_cases _ _ _ _ hp with
          ⟨res0, hsub, herr, hres⟩ | ⟨res0, ct, hsub, herr, hct, hty, hres⟩ | ⟨hsub, herr⟩
        · subst hres
          have hiff := (parser_result_inv (parseFuel ts)).2.1 .termRule [TT_PLUS, TT_MINUS]
            (Parser.init ts) res st2 hsub
          have hnode : res.node = Node.noneNode := by
            by_contra hcon
            exact herr (hiff.mpr hcon)
          refine ⟨fun hcon => herr hcon.2, fun hne _ => absurd hnode hne, ?_⟩
          intro err' herr'
          simp at herr'
        · have hiff := (parser_result_inv (parseFuel ts)).2.1 .termRule [TT_PLUS, TT_MINUS]
            (Parser.init ts) res0 st2 hsub
          have hnode : res0.node ≠ Node.noneNode := hiff.mp herr
          subst hres
          refine ⟨fun hcon => by simp at hcon, ?_, ?_⟩
          · intro _ _
            exact ⟨_, rfl, rfl, rfl⟩
          · intro err' herr'
            simp at herr'
        · have hiff := (parser_result_inv (parseFuel ts)).2.1 .termRule [TT_PLUS, TT_MINUS]
            (Parser.init ts) res st2 hsub
          have hnode : res.node ≠ Node.noneNode := hiff.mp herr
          refine ⟨fun hcon => hnode hcon.1, fun _ hne => absurd herr hne, ?_⟩
          intro err' herr'
          simp at herr'
      | crash => simp only [hp] at h; cases h
      | fuelOut => simp only [hp] at h; cases h

/-- The AST of "1+2". -/
def sampleNode : Node :=
  .BinOpNode
    (.NumberNode ⟨TT_INT, some (.intVal 1), ⟨0, 0, 0, "<stdin>", "1+2"⟩,
      ⟨1, 0, 1, "<stdin>", "1+2"⟩⟩)
    (Token.ofStart TT_PLUS ⟨1, 0, 1, "<stdin>", "1+2"⟩)
    (.NumberNode ⟨TT_INT, some (.intVal 2), ⟨2, 0, 2, "<stdin>", "1+2"⟩,
      ⟨3, 0, 3, "<stdin>", "1+2"⟩⟩)

/-- C1 witness: the amended statement instantiated on the fully successful
input "1+2". -/
theorem claim_C1_amended_witness :
    run "<stdin>" "1+2" = some (sampleNode, none) ∧
    (¬(sampleNode = .noneNode ∧ (none : Option Error) = none) ∧
     (sampleNode ≠ .noneNode → (none : Option Error) ≠ none →
       ∃ err, (none : Option Error) = some err ∧ err.error_name = "Invalid Syntax" ∧
         err.details = "Expected '+', '-', '*', '/' or EOF") ∧
     (∀ err, (makeTokens "<stdin>" "1+2").2 = some err →
       sampleNode = .noneNode ∧ (none : Option Error) = some err)) := by
  have h : run "<stdin>" "1+2" = some (sampleNode, none) := by
    simp [run, makeTokens, lexLoop, makeNumber, makeNumberLoop, consToken, parseF, exprF,
      binOpF, binOpLoopF, factorF, Parser.advance, Parser.init, parseFuel, Position.advance,
      Token.ofStart, intValue, digitsVal, sampleNode, WHITESPACE, DIGITS]
  exact ⟨h, claim_C1_amended "<stdin>" "1+2" sampleNode none h⟩

/-! ### Left associativity of same-tier chains (C3) -/

/-- C3: repeated operators of one precedence tier fold left-associatively:
for any number tokens a, b, c, any operator tokens o1, o2 drawn from the
same tier (both MUL/DIV, or both PLUS/MINUS) and any EOF token, parsing the
token chain a o1 b o2 c yields BinOpNode(BinOpNode(a, o1, b), o2, c); in
particular "8 - 3 - 2" parses to ((8 - 3) - 2), not (8 - (3 - 2)). -/
theorem claim_C3_left_assoc :
    (∀ (ta tb tc o1 o2 te : Token),
      (ta.type = TT_INT ∨ ta.type = TT_FLOAT) →
      (tb.type = TT_INT ∨ tb.type = TT_FLOAT) →
      (tc.type = TT_INT ∨ tc.type = TT_FLOAT) →
      te.type = TT_EOF →
      (((o1.type = TT_MUL ∨ o1.type = TT_DIV) ∧ (o2.type = TT_MUL ∨ o2.type = TT_DIV)) ∨
       ((o1.type = TT_PLUS ∨ o1.type = TT_MINUS) ∧
        (o2.type = TT_PLUS ∨ o2.type = TT_MINUS))) →
      parseF (parseFuel [ta, o1, tb, o2, tc, te]) (Parser.init [ta, o1, tb, o2, tc, te]) =
        .ok ⟨.BinOpNode (.BinOpNode (.NumberNode ta) o1 (.NumberNode tb)) o2 (.NumberNode tc),
          none⟩ ⟨[ta, o1, tb, o2, tc, te], 5, some te⟩) ∧
    (run "<stdin>" "8 - 3 - 2").map (fun p => (p.1.shape, p.2)) =
      some (.binShape (.binShape (.numShape TT_INT (some (.intVal 8))) TT_MINUS
        (.numShape TT_INT (some (.intVal 3)))) TT_MINUS
          (.numShape TT_INT (some (.intVal 2))), none) := by
  constructor
  · intro ta tb tc o1 o2 te h1 h2 h3 h4 h5
    obtain ⟨tya, va, pa1, pa2⟩ := ta
    obtain ⟨tyb, vb, pb1, pb2⟩ := tb
    obtain ⟨tyc, vc, pc1, pc2⟩ := tc
    obtain ⟨ty1, v1, q11, q12⟩ := o1
    obtain ⟨ty2, v2, q21, q22⟩ := o2
    obtain ⟨tye, ve, r1, r2⟩ := te
    have h1' : tya = TT_INT ∨ tya = TT_FLOAT := h1
    have h2' : tyb = TT_INT ∨ tyb = TT_FLOAT := h2
    have h3' : tyc = TT_INT ∨ tyc = TT_FLOAT := h3
    have h4' : tye = TT_EOF := h4
    have h5' : ((ty1 = TT_MUL ∨ ty1 = TT_DIV) ∧ (ty2 = TT_MUL ∨ ty2 = TT_DIV)) ∨
        ((ty1 = TT_PLUS ∨ ty1 = TT_MINUS) ∧ (ty2 = TT_PLUS ∨ ty2 = TT_MINUS)) := h5
    subst h4'
    rcases h1' with h1' | h1' <;> subst h1' <;>
      rcases h2' with h2' | h2' <;> subst h2' <;>
        rcases h3' with h3' | h3' <;> subst h3' <;>
          rcases h5' with ⟨ho1 | ho1, ho2 | ho2⟩ | ⟨ho1 | ho1, ho2 | ho2⟩ <;>
            subst ho1 <;> subst ho2 <;> rfl
  · simp [run, makeTokens, lexLoop, makeNumber, makeNumberLoop, consToken, parseF, exprF,
      binOpF, binOpLoopF, factorF, Parser.advance, Parser.init, parseFuel, Position.advance,
      Token.ofStart, Node.shape, intValue, digitsVal, WHITESPACE, DIGITS]

/-- C3 witness: the fold instantiated on the tokens of a concrete chain
8 * 3 / 2 of MUL-tier operators. -/
theorem claim_C3_left_assoc_witness :
    parseF (parseFuel [⟨TT_INT, some (.intVal 8), ⟨0, 0, 0, "w", "w"⟩, ⟨1, 0, 1, "w", "w"⟩⟩,
        Token.ofStart TT_MUL ⟨1, 0, 1, "w", "w"⟩,
        ⟨TT_INT, some (.intVal 3), ⟨2, 0, 2, "w", "w"⟩, ⟨3, 0, 3, "w", "w"⟩⟩,
        Token.ofStart TT_DIV ⟨3, 0, 3, "w", "w"⟩,
        ⟨TT_INT, some (.intVal 2), ⟨4, 0, 4, "w", "w"⟩, ⟨5, 0, 5, "w", "w"⟩⟩,
        Token.ofStart TT_EOF ⟨5, 0, 5, "w", "w"⟩])
      (Parser.init [⟨TT_INT, some (.intVal 8), ⟨0, 0, 0, "w", "w"⟩, ⟨1, 0, 1, "w", "w"⟩⟩,
        Token.ofStart TT_MUL ⟨1, 0, 1, "w", "w"⟩,
        ⟨TT_INT, some (.intVal 3), ⟨2, 0, 2, "w", "w"⟩, ⟨3, 0, 3, "w", "w"⟩⟩,
        Token.ofStart TT_DIV ⟨3, 0, 3, "w", "w"⟩,
        ⟨TT_INT, some (.intVal 2), ⟨4, 0, 4, "w", "w"⟩, ⟨5, 0, 5, "w", "w"⟩⟩,
        Token.ofStart TT_EOF ⟨5, 0, 5, "w", "w"⟩]) =
      .ok ⟨.BinOpNode (.BinOpNode
          (.NumberNode ⟨TT_INT, some (.intVal 8), ⟨0, 0, 0, "w", "w"⟩, ⟨1, 0, 1, "w", "w"⟩⟩)
          (Token.ofStart TT_MUL ⟨1, 0, 1, "w", "w"⟩)
          (.NumberNode ⟨TT_INT, some (.intVal 3), ⟨2, 0, 2, "w", "w"⟩, ⟨3, 0, 3, "w", "w"⟩⟩))
          (Token.ofStart TT_DIV ⟨3, 0, 3, "w", "w"⟩)
          (.NumberNode ⟨TT_INT, some (.intVal 2), ⟨4, 0, 4, "w", "w"⟩, ⟨5, 0, 5, "w", "w"⟩⟩),
        none⟩
        ⟨[⟨TT_INT, some (.intVal 8), ⟨0, 0, 0, "w", "w"⟩, ⟨1, 0, 1, "w", "w"⟩⟩,
          Token.ofStart TT_MUL ⟨1, 0, 1, "w", "w"⟩,
          ⟨TT_INT, some (.intVal 3), ⟨2, 0, 2, "w", "w"⟩, ⟨3, 0, 3, "w", "w"⟩⟩,
          Token.ofStart TT_DIV ⟨3, 0, 3, "w", "w"⟩,
          ⟨TT_INT, some (.intVal 2), ⟨4, 0, 4, "w", "w"⟩, ⟨5, 0, 5, "w", "w"⟩⟩,
          Token.ofStart TT_EOF ⟨5, 0, 5, "w", "w"⟩], 5,
          some (Token.ofStart TT_EOF ⟨5, 0, 5, "w", "w"⟩)⟩ :=
  claim_C3_left_assoc.1 _ _ _ _ _ _ (Or.inl rfl) (Or.inl rfl) (Or.inl rfl) rfl
    (Or.inl ⟨Or.inl rfl, Or.inr rfl⟩)



/-- Same token up to source positions: type and literal value agree. -/
def corrTok (t1 t2 : Token) : Prop :=
  t1.type = t2.type ∧ t1.value = t2.value

/-- A parser state in canonical form: the cursor inside the token list and
`current_tok` read off it. -/
def mkSt (ts : List Token) (i : Nat) : PState := ⟨ts, i, ts[i]?⟩

theorem advance_mkSt (ts : List Token) (i : Nat) (h : i + 1 < ts.length) :
    Parser.advance (mkSt ts i) = mkSt ts (i + 1) := by
  simp [Parser.advance, mkSt, h]

theorem forall2_getElem {α β : Type} {R : α → β → Prop} :
    ∀ {l1 : List α} {l2 : List β}, List.Forall₂ R l1 l2 →
      ∀ i (h1 : i < l1.length) (h2 : i < l2.length), R (l1[i]) (l2[i]) := by
  intro l1 l2 h
  induction h with
  | nil => intro i h1 _; simp at h1
  | cons hr ht ih =>
    intro i h1 h2
    cases i with
    | zero => simpa using hr
    | succ j => simpa using ih j (by simpa using h1) (by simpa using h2)

theorem getElem?_append_lt {l1 l2 : List Token} {i : Nat} (h : i < l1.length) :
    (l1 ++ l2)[i]? = some l1[i] := by
  rw [List.getElem?_append_left h]
  exact List.getElem?_eq_getElem h

theorem getElem?_append_end {l1 : List Token} {t : Token} :
    (l1 ++ [t])[l1.length]? = some t := by
  rw [List.getElem?_append_right (le_refl _)]
  simp

theorem parser_sim (ts1 ts2 : List Token) (hcorr : List.Forall₂ corrTok ts1 ts2)
    (e1 lp rp eof2 : Token) (he1 : e1.type = TT_EOF) (hrp : rp.type = TT_RPAREN) :
    ∀ f1 : Nat,
    (∀ f2 i res1 st1', f1 ≤ f2 → i ≤ ts1.length →
      factorF f1 (mkSt (ts1 ++ [e1]) i) = .ok res1 st1' → res1.error = none →
      ∃ i' res2, i' ≤ ts1.length ∧ st1' = mkSt (ts1 ++ [e1]) i' ∧
        factorF f2 (mkSt (lp :: ts2 ++ [rp, eof2]) (i + 1)) =
          .ok res2 (mkSt (lp :: ts2 ++ [rp, eof2]) (i' + 1)) ∧
        res2.error = none ∧ res2.node.shape = res1.node.shape) ∧
    (∀ (r : BinOpRule) (ops : List TokenType), TT_EOF ∉ ops → TT_RPAREN ∉ ops →
      ∀ f2 i res1 st1', f1 ≤ f2 → i ≤ ts1.length →
      binOpF f1 r ops (mkSt (ts1 ++ [e1]) i) = .ok res1 st1' → res1.error = none →
      ∃ i' res2, i' ≤ ts1.length ∧ st1' = mkSt (ts1 ++ [e1]) i' ∧
        binOpF f2 r ops (mkSt (lp :: ts2 ++ [rp, eof2]) (i + 1)) =
          .ok res2 (mkSt (lp :: ts2 ++ [rp, eof2]) (i' + 1)) ∧
        res2.error = none ∧ res2.node.shape = res1.node.shape) ∧
    (∀ (r : BinOpRule) (ops : List TokenType), TT_EOF ∉ ops → TT_RPAREN ∉ ops →
      ∀ (left1 left2 : Node), left1.shape = left2.shape →
      ∀ f2 i res1 st1', f1 ≤ f2 → i ≤ ts1.length →
      binOpLoopF f1 r ops left1 (mkSt (ts1 ++ [e1]) i) = .ok res1 st1' → res1.error = none →
      ∃ i' res2, i' ≤ ts1.length ∧ st1' = mkSt (ts1 ++ [e1]) i' ∧
        binOpLoopF f2 r ops left2 (mkSt (lp :: ts2 ++ [rp, eof2]) (i + 1)) =
          .ok res2 (mkSt (lp :: ts2 ++ [rp, eof2]) (i' + 1)) ∧
        res2.error = none ∧ res2.node.shape = res1.node.shape) := by
  have hlen : ts1.length = ts2.length := hcorr.length_eq
  have hlenA : (ts1 ++ [e1]).length = ts1.length + 1 := by simp
  have hlenB : (lp :: ts2 ++ [rp, eof2]).length = ts2.length + 3 := by simp
  have hget : ∀ i, i < ts1.length →
      ∃ t1 t2, ts1[i]? = some t1 ∧ ts2[i]? = some t2 ∧ corrTok t1 t2 := by
    intro i hi
    refine ⟨ts1[i], ts2.get ⟨i, by omega⟩, List.getElem?_eq_getElem hi,
      List.getElem?_eq_getElem (by omega), forall2_getElem hcorr i hi (by omega)⟩
  have hcurA : ∀ i t, ts1[i]? = some t →
      (mkSt (ts1 ++ [e1]) i).current_tok = some t := by
    intro i t ht
    have hi : i < ts1.length := by
      by_contra hcon
      rw [List.getElem?_eq_none (by omega)] at ht
      cases ht
    show (ts1 ++ [e1])[i]? = some t
    rw [List.getElem?_append_left hi]
    exact ht
  have hcurA_end : (mkSt (ts1 ++ [e1]) ts1.length).current_tok = some e1 := by
    show (ts1 ++ [e1])[ts1.length]? = some e1
    exact getElem?_append_end
  have hcurB : ∀ i t, ts2[i]? = some t →
      (mkSt (lp :: ts2 ++ [rp, eof2]) (i + 1)).current_tok = some t := by
    intro i t ht
    have hi : i < ts2.length := by
      by_contra hcon
      rw [List.getElem?_eq_none (by omega)] at ht
      cases ht
    show (lp :: ts2 ++ [rp, eof2])[i + 1]? = some t
    have hstep : (lp :: ts2 ++ [rp, eof2])[i + 1]? = (ts2 ++ [rp, eof2])[i]? := by simp
    rw [hstep, List.getElem?_append_left hi]
    exact ht
  have hcurB_end : (mkSt (lp :: ts2 ++ [rp, eof2]) (ts1.length + 1)).current_tok = some rp := by
    show (lp :: ts2 ++ [rp, eof2])[ts1.length + 1]? = some rp
    rw [hlen]
    have hstep : (lp :: ts2 ++ [rp, eof2])[ts2.length + 1]? = (ts2 ++ [rp, eof2])[ts2.length]? := by
      simp
    rw [hstep, List.getElem?_append_right (le_refl _)]
    simp
  intro f1
  induction f1 with
  | zero =>
    refine ⟨?_, ?_, ?_⟩ <;> intros <;> simp_all [factorF, binOpF, binOpLoopF]
  | succ f ih =>
    obtain ⟨ihF, ihB, ihL⟩ := ih
    refine ⟨?_, ?_, ?_⟩
    · -- factor
      intro f2 i res1 st1' hf2 hi heq herr
      cases f2 with
      | zero => omega
      | succ g =>
      have hg : f ≤ g := by omega
      by_cases hib : i < ts1.length
      · obtain ⟨t1, t2, hg1, hg2, hty, hval⟩ := hget i hib
        have hA := hcurA i t1 hg1
        have hB := hcurB i t2 hg2
        have hadvA : Parser.advance (mkSt (ts1 ++ [e1]) i) = mkSt (ts1 ++ [e1]) (i + 1) :=
          advance_mkSt _ _ (by rw [hlenA]; omega)
        have hadvB : Parser.advance (mkSt (lp :: ts2 ++ [rp, eof2]) (i + 1)) =
            mkSt (lp :: ts2 ++ [rp, eof2]) (i + 1 + 1) :=
          advance_mkSt _ _ (by rw [hlenB]; omega)
        simp only [factorF, hA] at heq
        by_cases h1 : t1.type = TT_PLUS ∨ t1.type = TT_MINUS
        · rw [if_pos h1, hadvA] at heq
          cases hsub : factorF f (mkSt (ts1 ++ [e1]) (i + 1)) with
          | ok sub stx =>
            simp only [hsub] at heq
            cases hserr : sub.error with
            | some e =>
              simp only [hserr] at heq
              cases heq
              simp at herr
            | none =>
              simp only [hserr] at heq
              cases heq
              obtain ⟨i', sub2, hi', hst, hrun2, herr2, hshape⟩ :=
                ihF g (i + 1) sub _ hg (by omega) hsub hserr
              refine ⟨i', ⟨.UnaryOpNode t2 sub2.node, none⟩, hi', hst, ?_, rfl, ?_⟩
              · simp only [factorF, hB]
                rw [if_pos (by rw [← hty]; exact h1), hadvB]
                simp only [hrun2, herr2]
              · simp [Node.shape, hty, hshape]
          | crash => simp only [hsub] at heq; cases heq
          | fuelOut => simp only [hsub] at heq; cases heq
        · by_cases h2 : t1.type = TT_INT ∨ t1.type = TT_FLOAT
          · rw [if_neg h1, if_pos h2, hadvA] at heq
            cases heq
            refine ⟨i + 1, ⟨.NumberNode t2, none⟩, by omega, rfl, ?_, rfl, ?_⟩
            · simp only [factorF, hB]
              rw [if_neg (by rw [← hty]; exact h1), if_pos (by rw [← hty]; exact h2), hadvB]
            · simp [Node.shape, hty, hval]
          · by_cases h3 : t1.type = TT_LPAREN
            · rw [if_neg h1, if_neg h2, if_pos h3, hadvA] at heq
              cases hsub : binOpF f .termRule [TT_PLUS, TT_MINUS]
                  (mkSt (ts1 ++ [e1]) (i + 1)) with
              | ok sub stx =>
                simp only [hsub] at heq
                cases hserr : sub.error with
                | some e =>
                  simp only [hserr] at heq
                  cases heq
                  simp at herr
                | none =>
                  simp only [hserr] at heq
                  obtain ⟨i', sub2, hi', hst, hrun2, herr2, hshape⟩ :=
                    ihB .termRule [TT_PLUS, TT_MINUS] (by decide) (by decide)
                      g (i + 1) sub _ hg (by omega) hsub hserr
                  subst hst
                  by_cases hi'b : i' < ts1.length
                  · obtain ⟨u1, u2, hgu1, hgu2, htyu, hvalu⟩ := hget i' hi'b
                    have hA' := hcurA i' u1 hgu1
                    have hB' := hcurB i' u2 hgu2
                    simp only [hA'] at heq
                    by_cases h4 : u1.type = TT_RPAREN
                    · have hadvA' : Parser.advance (mkSt (ts1 ++ [e1]) i') =
                          mkSt (ts1 ++ [e1]) (i' + 1) :=
                        advance_mkSt _ _ (by rw [hlenA]; omega)
                      have hadvB' : Parser.advance (mkSt (lp :: ts2 ++ [rp, eof2]) (i' + 1)) =
                          mkSt (lp :: ts2 ++ [rp, eof2]) (i' + 1 + 1) :=
                        advance_mkSt _ _ (by rw [hlenB]; omega)
                      rw [if_pos h4, hadvA'] at heq
                      cases heq
                      refine ⟨i' + 1, ⟨sub2.node, none⟩, by omega, rfl, ?_, rfl, hshape⟩
                      simp only [factorF, hB]
                      rw [if_neg (by rw [← hty]; exact h1), if_neg (by rw [← hty]; exact h2),
                        if_pos (by rw [← hty]; exact h3), hadvB]
                      simp only [hrun2, herr2, hB']
                      rw [if_pos (by rw [← htyu]; exact h4), hadvB']
                    · rw [if_neg h4] at heq
                      cases heq
                      simp at herr
                  · have hi'e : i' = ts1.length := by omega
                    subst hi'e
                    simp only [hcurA_end] at heq
                    rw [if_neg (by rw [he1]; decide)] at heq
                    cases heq
                    simp at herr
              | crash => simp only [hsub] at heq; cases heq
              | fuelOut => simp only [hsub] at heq; cases heq
            · rw [if_neg h1, if_neg h2, if_neg h3] at heq
              cases heq
              simp at herr
      · have hie : i = ts1.length := by omega
        subst hie
        simp only [factorF, hcurA_end] at heq
        rw [if_neg (by rw [he1]; decide), if_neg (by rw [he1]; decide),
          if_neg (by rw [he1]; decide)] at heq
        cases heq
        simp at herr
    · -- bin_op: first operand then the fold loop
      intro r ops hops1 hops2 f2 i res1 st1' hf2 hi heq herr
      cases f2 with
      | zero => omega
      | succ g =>
      have hg : f ≤ g := by omega
      cases r with
      | factorRule =>
        simp only [binOpF] at heq
        cases hsub : factorF f (mkSt (ts1 ++ [e1]) i) with
        | ok sub stx =>
          simp only [hsub] at heq
          cases hserr : sub.error with
          | some e =>
            simp only [hserr] at heq
            cases heq
            simp at herr
          | none =>
            simp only [hserr] at heq
            obtain ⟨i'', sub2, hi'', hst, hrun2, herr2, hshape⟩ :=
              ihF g i sub _ hg hi hsub hserr
            subst hst
            obtain ⟨i', resL2, hi', hstL, hrunL2, herrL2, hshapeL⟩ :=
              ihL .factorRule ops hops1 hops2 sub.node sub2.node hshape.symm
                g i'' res1 st1' hg hi'' heq herr
            refine ⟨i', resL2, hi', hstL, ?_, herrL2, hshapeL⟩
            simp only [binOpF, hrun2, herr2, hrunL2]
        | crash => simp only [hsub] at heq; cases heq
        | fuelOut => simp only [hsub] at heq; cases heq
      | termRule =>
        simp only [binOpF] at heq
        cases hsub : binOpF f .factorRule [TT_MUL, TT_DIV] (mkSt (ts1 ++ [e1]) i) with
        | ok sub stx =>
          simp only [hsub] at heq
          cases hserr : sub.error with
          | some e =>
            simp only [hserr] at heq
            cases heq
            simp at herr
          | none =>
            simp only [hserr] at heq
            obtain ⟨i'', sub2, hi'', hst, hrun2, herr2, hshape⟩ :=
              ihB .factorRule [TT_MUL, TT_DIV] (by decide) (by decide)
                g i sub _ hg hi hsub hserr
            subst hst
            obtain ⟨i', resL2, hi', hstL, hrunL2, herrL2, hshapeL⟩ :=
              ihL .termRule ops hops1 hops2 sub.node sub2.node hshape.symm
                g i'' res1 st1' hg hi'' heq herr
            refine ⟨i', resL2, hi', hstL, ?_, herrL2, hshapeL⟩
            simp only [binOpF, hrun2, herr2, hrunL2]
        | crash => simp only [hsub] at heq; cases heq
        | fuelOut => simp only [hsub] at heq; cases heq
    · -- the while loop of bin_op
      intro r ops hops1 hops2 left1 left2 hlshape f2 i res1 st1' hf2 hi heq herr
      cases f2 with
      | zero => omega
      | succ g =>
      have hg : f ≤ g := by omega
      cases r with
      | factorRule =>
        by_cases hib : i < ts1.length
        · obtain ⟨t1, t2, hg1, hg2, hty, hval⟩ := hget i hib
          have hA := hcurA i t1 hg1
          have hB := hcurB i t2 hg2
          have hadvA : Parser.advance (mkSt (ts1 ++ [e1]) i) = mkSt (ts1 ++ [e1]) (i + 1) :=
            advance_mkSt _ _ (by rw [hlenA]; omega)
          have hadvB : Parser.advance (mkSt (lp :: ts2 ++ [rp, eof2]) (i + 1)) =
              mkSt (lp :: ts2 ++ [rp, eof2]) (i + 1 + 1) :=
            advance_mkSt _ _ (by rw [hlenB]; omega)
          simp only [binOpLoopF, hA] at heq
          by_cases h1 : t1.type ∈ ops
          · rw [if_pos h1, hadvA] at heq
            cases hsub : factorF f (mkSt (ts1 ++ [e1]) (i + 1)) with
            | ok sub stx =>
              simp only [hsub] at heq
              cases hserr : sub.error with
              | some e =>
                simp only [hserr] at heq
                cases heq
                simp at herr
              | none =>
                simp only [hserr] at heq
                obtain ⟨i'', sub2, hi'', hst, hrun2, herr2, hshape⟩ :=
                  ihF g (i + 1) sub _ hg (by omega) hsub hserr
                subst hst
                obtain ⟨i', resL2, hi', hstL, hrunL2, herrL2, hshapeL⟩ :=
                  ihL .factorRule ops hops1 hops2 (.BinOpNode left1 t1 sub.node)
                    (.BinOpNode left2 t2 sub2.node)
                    (by simp only [Node.shape]; rw [hlshape, hty, ← hshape])
                    g i'' res1 st1' hg hi'' heq herr
                refine ⟨i', resL2, hi', hstL, ?_, herrL2, hshapeL⟩
                simp only [binOpLoopF, hB]
                rw [if_pos (by rw [← hty]; exact h1), hadvB]
                simp only [hrun2, herr2, hrunL2]
            | crash => simp only [hsub] at heq; cases heq
            | fuelOut => simp only [hsub] at heq; cases heq
          · rw [if_neg h1] at heq
            cases heq
            refine ⟨i, ⟨left2, none⟩, by omega, rfl, ?_, rfl, hlshape.symm⟩
            simp only [binOpLoopF, hB]
            rw [if_neg (by rw [← hty]; exact h1)]
        · have hie : i = ts1.length := by omega
          subst hie
          simp only [binOpLoopF, hcurA_end] at heq
          rw [if_neg (by rw [he1]; exact hops1)] at heq
          cases heq
          refine ⟨ts1.length, ⟨left2, none⟩, le_refl _, rfl, ?_, rfl, hlshape.symm⟩
          simp only [binOpLoopF, hcurB_end]
          rw [if_neg (by rw [hrp]; exact hops2)]
      | termRule =>
        by_cases hib : i < ts1.length
        · obtain ⟨t1, t2, hg1, hg2, hty, hval⟩ := hget i hib
          have hA := hcurA i t1 hg1
          have hB := hcurB i t2 hg2
          have hadvA : Parser.advance (mkSt (ts1 ++ [e1]) i) = mkSt (ts1 ++ [e1]) (i + 1) :=
            advance_mkSt _ _ (by rw [hlenA]; omega)
          have hadvB : Parser.advance (mkSt (lp :: ts2 ++ [rp, eof2]) (i + 1)) =
              mkSt (lp :: ts2 ++ [rp, eof2]) (i + 1 + 1) :=
            advance_mkSt _ _ (by rw [hlenB]; omega)
          simp only [binOpLoopF, hA] at heq
          by_cases h1 : t1.type ∈ ops
          · rw [if_pos h1, hadvA] at heq
            cases hsub : binOpF f .factorRule [TT_MUL, TT_DIV]
                (mkSt (ts1 ++ [e1]) (i + 1)) with
            | ok sub stx =>
              simp only [hsub] at heq
              cases hserr : sub.error with
              | some e =>
                simp only [hserr] at heq
                cases heq
                simp at herr
              | none =>
                simp only [hserr] at heq
                obtain ⟨i'', sub2, hi'', hst, hrun2, herr2, hshape⟩ :=
                  ihB .factorRule [TT_MUL, TT_DIV] (by decide) (by decide)
                    g (i + 1) sub _ hg (by omega) hsub hserr
                subst hst
                obtain ⟨i', resL2, hi', hstL, hrunL2, herrL2, hshapeL⟩ :=
                  ihL .termRule ops hops1 hops2 (.BinOpNode left1 t1 sub.node)
                    (.BinOpNode left2 t2 sub2.node)
                    (by simp only [Node.shape]; rw [hlshape, hty, ← hshape])
                    g i'' res1 st1' hg hi'' heq herr
                refine ⟨i', resL2, hi', hstL, ?_, herrL2, hshapeL⟩
                simp only [binOpLoopF, hB]
                rw [if_pos (by rw [← hty]; exact h1), hadvB]
                simp only [hrun2, herr2, hrunL2]
            | crash => simp only [hsub] at heq; cases heq
            | fuelOut => simp only [hsub] at heq; cases heq
          · rw [if_neg h1] at heq
            cases heq
            refine ⟨i, ⟨left2, none⟩, by omega, rfl, ?_, rfl, hlshape.symm⟩
            simp only [binOpLoopF, hB]
            rw [if_neg (by rw [← hty]; exact h1)]
        · have hie : i = ts1.length := by omega
          subst hie
          simp only [binOpLoopF, hcurA_end] at heq
          rw [if_neg (by rw [he1]; exact hops1)] at heq
          cases heq
          refine ⟨ts1.length, ⟨left2, none⟩, le_refl _, rfl, ?_, rfl, hlshape.symm⟩
          simp only [binOpLoopF, hcurB_end]
          rw [if_neg (by rw [hrp]; exact hops2)]

/-- The string, dot count and unconsumed rest computed by `make_number`'s
loop do not depend on the position threaded through it. -/
theorem makeNumberLoop_shift :
    ∀ (xs : List Char) (p p' : Position) (acc : String) (cnt : Nat),
      (makeNumberLoop xs p acc cnt).1 = (makeNumberLoop xs p' acc cnt).1 ∧
      (makeNumberLoop xs p acc cnt).2.1 = (makeNumberLoop xs p' acc cnt).2.1 ∧
      (makeNumberLoop xs p acc cnt).2.2.1 = (makeNumberLoop xs p' acc cnt).2.2.1 := by
  intro xs
  induction xs with
  | nil => intro p p' acc cnt; simp [makeNumberLoop]
  | cons c rest ih =>
    intro p p' acc cnt
    by_cases h1 : c ∈ (DIGITS ++ ".").data
    · by_cases h2 : c = '.'
      · by_cases h3 : cnt = 1
        · simp only [makeNumberLoop, if_pos h1, if_pos h2, if_pos h3]
          exact ⟨trivial, trivial, trivial⟩
        · simp only [makeNumberLoop, if_pos h1, if_pos h2, if_neg h3]
          exact ih _ _ _ _
      · simp only [makeNumberLoop, if_pos h1, if_neg h2]
        exact ih _ _ _ _
    · simp only [makeNumberLoop, if_neg h1]
      exact ⟨trivial, trivial, trivial⟩

/-- The token's type and value and the unconsumed rest computed by
`make_number` do not depend on the entry position. -/
theorem makeNumber_shift (l : List Char) (p p' : Position) :
    (makeNumber l p).1.type = (makeNumber l p').1.type ∧
    (makeNumber l p).1.value = (makeNumber l p').1.value ∧
    (makeNumber l p).2.1 = (makeNumber l p').2.1 := by
  obtain ⟨h1, h2, h3⟩ := makeNumberLoop_shift l p p' "" 0
  simp only [makeNumber]
  rcases ha : makeNumberLoop l p "" 0 with ⟨n1, d1, r1, q1⟩
  rcases hb : makeNumberLoop l p' "" 0 with ⟨n2, d2, r2, q2⟩
  rw [ha, hb] at h1 h2 h3
  simp only at h1 h2 h3
  subst h1; subst h2; subst h3
  by_cases hd : d1 = 0 <;> simp [hd]

/-- Apart from its positions, the token stream produced by the scan does
not depend on the position the scan starts from, and neither does whether
it fails. -/
theorem lexLoop_shift : ∀ (s : List Char) (p : Position), ∀ (p' : Position),
    List.Forall₂ corrTok (lexLoop s p).1 (lexLoop s p').1 ∧
    ((lexLoop s p).2 = none ↔ (lexLoop s p').2 = none) := by
  intro s p
  induction s, p using lexLoop.induct with
  | case1 pos =>
    intro p'
    simp only [lexLoop]
    exact ⟨List.Forall₂.cons ⟨rfl, rfl⟩ List.Forall₂.nil, by simp⟩
  | case2 c rest pos hw ih =>
    intro p'
    rw [show lexLoop (c :: rest) pos = lexLoop rest (pos.advance (some c)) by
          simp [lexLoop, hw],
        show lexLoop (c :: rest) p' = lexLoop rest (p'.advance (some c)) by
          simp [lexLoop, hw]]
    exact ih _
  | case3 c rest pos hw hd tok rest2 pos2 hmk ih =>
    intro p'
    rw [lexLoop_digit_step c rest pos hw hd, lexLoop_digit_step c rest p' hw hd]
    rcases hmk' : makeNumber (c :: rest) p' with ⟨tok', rest2', pos2'⟩
    obtain ⟨hty, hval, hrest⟩ := makeNumber_shift (c :: rest) pos p'
    rw [hmk, hmk'] at hty hval hrest
    simp only at hty hval hrest
    rw [hmk]
    simp only
    rw [← hrest]
    obtain ⟨hf, hiff⟩ := ih pos2'
    rcases hx : lexLoop rest2 pos2 with ⟨us1, e1⟩
    rcases hy : lexLoop rest2 pos2' with ⟨us2, e2⟩
    rw [hx, hy] at hf hiff
    simp only at hf hiff
    cases e1 with
    | none =>
      cases e2 with
      | none => exact ⟨List.Forall₂.cons ⟨hty, hval⟩ hf, by simp [consToken]⟩
      | some e => simp at hiff
    | some e =>
      cases e2 with
      | none => simp at hiff
      | some e' => exact ⟨List.Forall₂.nil, by simp [consToken]⟩
  | case4 rest pos h1 h2 ih =>
    intro p'
    simp only [lexLoop, h1, h2, if_false, if_true]
    obtain ⟨hf, hiff⟩ := ih (p'.advance (some '+'))
    rcases hx : lexLoop rest (pos.advance (some '+')) with ⟨us1, e1⟩
    rcases hy : lexLoop rest (p'.advance (some '+')) with ⟨us2, e2⟩
    rw [hx, hy] at hf hiff
    simp only at hf hiff
    cases e1 with
    | none =>
      cases e2 with
      | none => exact ⟨List.Forall₂.cons ⟨rfl, rfl⟩ hf, by simp [consToken]⟩
      | some e => simp at hiff
    | some e =>
      cases e2 with
      | none => simp at hiff
      | some e' => exact ⟨List.Forall₂.nil, by simp [consToken]⟩
  | case5 rest pos h1 h2 h3 ih =>
    intro p'
    simp only [lexLoop, h1, h2, h3, if_false, if_true]
    obtain ⟨hf, hiff⟩ := ih (p'.advance (some '-'))
    rcases hx : lexLoop rest (pos.advance (some '-')) with ⟨us1, e1⟩
    rcases hy : lexLoop rest (p'.advance (some '-')) with ⟨us2, e2⟩
    rw [hx, hy] at hf hiff
    simp only at hf hiff
    cases e1 with
    | none =>
      cases e2 with
      | none => exact ⟨List.Forall₂.cons ⟨rfl, rfl⟩ hf, by simp [consToken]⟩
      | some e => simp at hiff
    | some e =>
      cases e2 with
      | none => simp at hiff
      | some e' => exact ⟨List.Forall₂.nil, by simp [consToken]⟩
  | case6 rest pos h1 h2 h3 h4 ih =>
    intro p'
    simp only [lexLoop, h1, h2, h3, h4, if_false, if_true]
    obtain ⟨hf, hiff⟩ := ih (p'.advance (some '*'))
    rcases hx : lexLoop rest (pos.advance (some '*')) with ⟨us1, e1⟩
    rcases hy : lexLoop rest (p'.advance (some '*')) with ⟨us2, e2⟩
    rw [hx, hy] at hf hiff
    simp only at hf hiff
    cases e1 with
    | none =>
      cases e2 with
      | none => exact ⟨List.Forall₂.cons ⟨rfl, rfl⟩ hf, by simp [consToken]⟩
      | some e => simp at hiff
    | some e =>
      cases e2 with
      | none => simp at hiff
      | some e' => exact ⟨List.Forall₂.nil, by simp [consToken]⟩
  | case7 rest pos h1 h2 h3 h4 h5 ih =>
    intro p'
    simp only [lexLoop, h1, h2, h3, h4, h5, if_false, if_true]
    obtain ⟨hf, hiff⟩ := ih (p'.advance (some '/'))
    rcases hx : lexLoop rest (pos.advance (some '/')) with ⟨us1, e1⟩
    rcases hy : lexLoop rest (p'.advance (some '/')) with ⟨us2, e2⟩
    rw [hx, hy] at hf hiff
    simp only at hf hiff
    cases e1 with
    | none =>
      cases e2 with
      | none => exact ⟨List.Forall₂.cons ⟨rfl, rfl⟩ hf, by simp [consToken]⟩
      | some e => simp at hiff
    | some e =>
      cases e2 with
      | none => simp at hiff
      | some e' => exact ⟨List.Forall₂.nil, by simp [consToken]⟩
  | case8 rest pos h1 h2 h3 h4 h5 h6 ih =>
    intro p'
    simp only [lexLoop, h1, h2, h3, h4, h5, h6, if_false, if_true]
    obtain ⟨hf, hiff⟩ := ih (p'.advance (some '('))
    rcases hx : lexLoop rest (pos.advance (some '(')) with ⟨us1, e1⟩
    rcases hy : lexLoop rest (p'.advance (some '(')) with ⟨us2, e2⟩
    rw [hx, hy] at hf hiff
    simp only at hf hiff
    cases e1 with
    | none =>
      cases e2 with
      | none => exact ⟨List.Forall₂.cons ⟨rfl, rfl⟩ hf, by simp [consToken]⟩
      | some e => simp at hiff
    | some e =>
      cases e2 with
      | none => simp at hiff
      | some e' => exact ⟨List.Forall₂.nil, by simp [consToken]⟩
  | case9 rest pos h1 h2 h3 h4 h5 h6 h7 ih =>
    intro p'
    simp only [lexLoop, h1, h2, h3, h4, h5, h6, h7, if_false, if_true]
    obtain ⟨hf, hiff⟩ := ih (p'.advance (some ')'))
    rcases hx : lexLoop rest (pos.advance (some ')')) with ⟨us1, e1⟩
    rcases hy : lexLoop rest (p'.advance (some ')')) with ⟨us2, e2⟩
    rw [hx, hy] at hf hiff
    simp only at hf hiff
    cases e1 with
    | none =>
      cases e2 with
      | none => exact ⟨List.Forall₂.cons ⟨rfl, rfl⟩ hf, by simp [consToken]⟩
      | some e => simp at hiff
    | some e =>
      cases e2 with
      | none => simp at hiff
      | some e' => exact ⟨List.Forall₂.nil, by simp [consToken]⟩
  | case10 c rest pos h1 h2 h3 h4 h5 h6 h7 h8 =>
    intro p'
    simp only [lexLoop, h1, h2, h3, h4, h5, h6, h7, h8, if_false]
    exact ⟨List.Forall₂.nil, by simp⟩

/-- Gluing a finished prefix of tokens onto the outcome of scanning the
remaining text: an error in the remainder wipes the tokens, as `consToken`
does at every step. -/
def glueTokens (ts : List Token) : List Token × Option Error → List Token × Option Error
  | (us, none) => (ts ++ us, none)
  | (_, some e) => ([], some e)

theorem consToken_glue (t : Token) (ts : List Token) (r : List Token × Option Error) :
    consToken t (glueTokens ts r) = glueTokens (t :: ts) r := by
  rcases r with ⟨us, e⟩
  cases e <;> simp [glueTokens, consToken]

/-- A failed scan returns no tokens at all. -/
theorem lexLoop_error_empty : ∀ (s : List Char) (p : Position),
    (lexLoop s p).2 ≠ none → (lexLoop s p).1 = [] := by
  intro s p
  induction s, p using lexLoop.induct with
  | case1 pos => intro h; simp [lexLoop] at h
  | case2 c rest pos hw ih =>
    rw [show lexLoop (c :: rest) pos = lexLoop rest (pos.advance (some c)) by
          simp [lexLoop, hw]]
    exact ih
  | case3 c rest pos hw hd tok rest2 pos2 hmk ih =>
    rw [lexLoop_digit_step c rest pos hw hd, hmk]
    simp only
    rcases hx : lexLoop rest2 pos2 with ⟨us, e⟩
    cases e <;> simp [consToken]
  | case4 rest pos h1 h2 ih =>
    simp only [lexLoop, h1, h2, if_false, if_true]
    rcases hx : lexLoop rest (pos.advance (some '+')) with ⟨us, e⟩
    cases e <;> simp [consToken]
  | case5 rest pos h1 h2 h3 ih =>
    simp only [lexLoop, h1, h2, h3, if_false, if_true]
    rcases hx : lexLoop rest (pos.advance (some '-')) with ⟨us, e⟩
    cases e <;> simp [consToken]
  | case6 rest pos h1 h2 h3 h4 ih =>
    simp only [lexLoop, h1, h2, h3, h4, if_false, if_true]
    rcases hx : lexLoop rest (pos.advance (some '*')) with ⟨us, e⟩
    cases e <;> simp [consToken]
  | case7 rest pos h1 h2 h3 h4 h5 ih =>
    simp only [lexLoop, h1, h2, h3, h4, h5, if_false, if_true]
    rcases hx : lexLoop rest (pos.advance (some '/')) with ⟨us, e⟩
    cases e <;> simp [consToken]
  | case8 rest pos h1 h2 h3 h4 h5 h6 ih =>
    simp only [lexLoop, h1, h2, h3, h4, h5, h6, if_false, if_true]
    rcases hx : lexLoop rest (pos.advance (some '(')) with ⟨us, e⟩
    cases e <;> simp [consToken]
  | case9 rest pos h1 h2 h3 h4 h5 h6 h7 ih =>
    simp only [lexLoop, h1, h2, h3, h4, h5, h6, h7, if_false, if_true]
    rcases hx : lexLoop rest (pos.advance (some ')')) with ⟨us, e⟩
    cases e <;> simp [consToken]
  | case10 c rest pos h1 h2 h3 h4 h5 h6 h7 h8 =>
    simp [lexLoop, h1, h2, h3, h4, h5, h6, h7, h8]

/-- Splitting a `Forall₂` of two lists that each end in one extra element. -/
theorem forall2_unsnoc {R : Token → Token → Prop} :
    ∀ {l1 l2 : List Token} {x y : Token},
      List.Forall₂ R (l1 ++ [x]) (l2 ++ [y]) → List.Forall₂ R l1 l2 ∧ R x y := by
  intro l1
  induction l1 with
  | nil =>
    intro l2 x y h
    cases l2 with
    | nil =>
      simp only [List.nil_append] at h
      cases h with
      | cons hr ht => exact ⟨List.Forall₂.nil, hr⟩
    | cons b bs =>
      have := h.length_eq
      simp [List.length_append] at this
  | cons a as ih =>
    intro l2 x y h
    cases l2 with
    | nil =>
      have := h.length_eq
      simp [List.length_append] at this
    | cons b bs =>
      simp only [List.cons_append] at h
      cases h with
      | cons hr ht =>
        obtain ⟨h1, h2⟩ := ih ht
        exact ⟨List.Forall₂.cons hr h1, h2⟩

/-- Splicing extra text whose first character cannot extend a numeric
literal after the input of `make_number`'s loop leaves the scanned literal
unchanged and the extra text unconsumed. -/
theorem makeNumberLoop_append (zs : List Char)
    (hz : ∀ c zrest, zs = c :: zrest → c ∉ (DIGITS ++ ".").data) :
    ∀ (xs : List Char) (p : Position) (acc : String) (cnt : Nat),
      makeNumberLoop (xs ++ zs) p acc cnt =
        ((makeNumberLoop xs p acc cnt).1, (makeNumberLoop xs p acc cnt).2.1,
         (makeNumberLoop xs p acc cnt).2.2.1 ++ zs,
         (makeNumberLoop xs p acc cnt).2.2.2) := by
  intro xs
  induction xs with
  | nil =>
    intro p acc cnt
    cases zs with
    | nil => simp [makeNumberLoop]
    | cons c zrest =>
      have hc := hz c zrest rfl
      simp only [List.nil_append, makeNumberLoop, if_neg hc]
  | cons x xs ih =>
    intro p acc cnt
    by_cases h1 : x ∈ (DIGITS ++ ".").data
    · by_cases h2 : x = '.'
      · by_cases h3 : cnt = 1
        · simp only [List.cons_append, makeNumberLoop, if_pos h1, if_pos h2, if_pos h3]
          simp
        · simp only [List.cons_append, makeNumberLoop, if_pos h1, if_pos h2, if_neg h3]
          exact ih _ _ _
      · simp only [List.cons_append, makeNumberLoop, if_pos h1, if_neg h2]
        exact ih _ _ _
    · simp only [List.cons_append, makeNumberLoop, if_neg h1]
      simp

/-- The scan of `make_number` is oblivious to extra text appended after its input when
that text cannot extend a numeric literal. -/
theorem makeNumber_append (zs : List Char)
    (hz : ∀ c zrest, zs = c :: zrest → c ∉ (DIGITS ++ ".").data)
    (l : List Char) (p : Position) :
    makeNumber (l ++ zs) p =
      ((makeNumber l p).1, (makeNumber l p).2.1 ++ zs, (makeNumber l p).2.2) := by
  simp only [makeNumber]
  rw [makeNumberLoop_append zs hz l p "" 0]
  rcases h : makeNumberLoop l p "" 0 with ⟨n, d, r, q⟩
  by_cases hd : d = 0 <;> simp [hd]

/-- Extending a successfully scanned text: the scan of `s ++ zs` runs
through the tokens of `s` (minus its end-of-input token) and continues with
`zs` from the final position, provided the first character of `zs` cannot
extend a numeric literal. -/
theorem lexLoop_append (zs : List Char)
    (hz : ∀ c zrest, zs = c :: zrest → c ∉ (DIGITS ++ ".").data) :
    ∀ (s : List Char) (p : Position), ∀ (ts1 : List Token) (q : Position),
      lexLoop s p = (ts1 ++ [Token.ofStart TT_EOF q], none) →
      lexLoop (s ++ zs) p = glueTokens ts1 (lexLoop zs q) := by
  intro s p
  induction s, p using lexLoop.induct with
  | case1 pos =>
    intro ts1 q h
    simp only [lexLoop, Prod.mk.injEq] at h
    obtain ⟨h1, -⟩ := h
    cases ts1 with
    | nil =>
      simp only [List.nil_append, List.cons.injEq, and_true] at h1
      have hq : pos = q := congrArg Token.pos_start h1
      subst hq
      simp only [List.nil_append]
      rcases hx : lexLoop zs pos with ⟨us, e⟩
      cases e with
      | none => simp [glueTokens]
      | some err =>
        have hemp := lexLoop_error_empty zs pos (by rw [hx]; simp)
        rw [hx] at hemp
        simp only at hemp
        subst hemp
        simp [glueTokens]
    | cons a as =>
      have := congrArg List.length h1
      simp only [List.length_cons, List.length_append, List.length_nil] at this
      omega
  | case2 c rest pos hw ih =>
    intro ts1 q h
    rw [show lexLoop (c :: rest) pos = lexLoop rest (pos.advance (some c)) by
          simp [lexLoop, hw]] at h
    rw [List.cons_append,
        show lexLoop (c :: (rest ++ zs)) pos = lexLoop (rest ++ zs) (pos.advance (some c)) by
          simp [lexLoop, hw]]
    exact ih ts1 q h
  | case3 c rest pos hw hd tok rest2 pos2 hmk ih =>
    intro ts1 q h
    rw [lexLoop_digit_step c rest pos hw hd, hmk] at h
    simp only at h
    obtain ⟨ts0, h0, hts⟩ := consToken_eq_none _ _ _ h
    have hmk2 : makeNumber (c :: (rest ++ zs)) pos = (tok, rest2 ++ zs, pos2) := by
      rw [← List.cons_append, makeNumber_append zs hz, hmk]
    cases ts1 with
    | nil =>
      simp only [List.nil_append, List.cons.injEq] at hts
      rcases makeNumber_type (c :: rest) pos with hty | hty <;> rw [hmk] at hty <;>
        simp only at hty <;> rw [← hts.1] at hty <;> simp [Token.ofStart] at hty
    | cons a as =>
      simp only [List.cons_append, List.cons.injEq] at hts
      obtain ⟨hta, hts0⟩ := hts
      subst hts0
      have hrec := ih as q h0
      rw [List.cons_append, lexLoop_digit_step c (rest ++ zs) pos hw hd, hmk2]
      simp only
      rw [hrec, hta, consToken_glue]
  | case4 rest pos h1 h2 ih =>
    intro ts1 q h
    simp only [lexLoop, h1, h2, if_false, if_true] at h
    obtain ⟨ts0, h0, hts⟩ := consToken_eq_none _ _ _ h
    cases ts1 with
    | nil =>
      simp only [List.nil_append, List.cons.injEq] at hts
      have hcon := congrArg Token.type hts.1
      simp [Token.ofStart] at hcon
    | cons a as =>
      simp only [List.cons_append, List.cons.injEq] at hts
      obtain ⟨hta, hts0⟩ := hts
      subst hts0
      have hrec := ih as q h0
      rw [List.cons_append]
      simp only [lexLoop, h1, h2, if_false, if_true]
      rw [hrec, hta, consToken_glue]
  | case5 rest pos h1 h2 h3 ih =>
    intro ts1 q h
    simp only [lexLoop, h1, h2, h3, if_false, if_true] at h
    obtain ⟨ts0, h0, hts⟩ := consToken_eq_none _ _ _ h
    cases ts1 with
    | nil =>
      simp only [List.nil_append, List.cons.injEq] at hts
      have hcon := congrArg Token.type hts.1
      simp [Token.ofStart] at hcon
    | cons a as =>
      simp only [List.cons_append, List.cons.injEq] at hts
      obtain ⟨hta, hts0⟩ := hts
      subst hts0
      have hrec := ih as q h0
      rw [List.cons_append]
      simp only [lexLoop, h1, h2, h3, if_false, if_true]
      rw [hrec, hta, consToken_glue]
  | case6 rest pos h1 h2 h3 h4 ih =>
    intro ts1 q h
    simp only [lexLoop, h1, h2, h3, h4, if_false, if_true] at h
    obtain ⟨ts0, h0, hts⟩ := consToken_eq_none _ _ _ h
    cases ts1 with
    | nil =>
      simp only [List.nil_append, List.cons.injEq] at hts
      have hcon := congrArg Token.type hts.1
      simp [Token.ofStart] at hcon
    | cons a as =>
      simp only [List.cons_append, List.cons.injEq] at hts
      obtain ⟨hta, hts0⟩ := hts
      subst hts0
      have hrec := ih as q h0
      rw [List.cons_append]
      simp only [lexLoop, h1, h2, h3, h4, if_false, if_true]
      rw [hrec, hta, consToken_glue]
  | case7 rest pos h1 h2 h3 h4 h5 ih =>
    intro ts1 q h
    simp only [lexLoop, h1, h2, h3, h4, h5, if_false, if_true] at h
    obtain ⟨ts0, h0, hts⟩ := consToken_eq_none _ _ _ h
    cases ts1 with
    | nil =>
      simp only [List.nil_append, List.cons.injEq] at hts
      have hcon := congrArg Token.type hts.1
      simp [Token.ofStart] at hcon
    | cons a as =>
      simp only [List.cons_append, List.cons.injEq] at hts
      obtain ⟨hta, hts0⟩ := hts
      subst hts0
      have hrec := ih as q h0
      rw [List.cons_append]
      simp only [lexLoop, h1, h2, h3, h4, h5, if_false, if_true]
      rw [hrec, hta, consToken_glue]
  | case8 rest pos h1 h2 h3 h4 h5 h6 ih =>
    intro ts1 q h
    simp only [lexLoop, h1, h2, h3, h4, h5, h6, if_false, if_true] at h
    obtain ⟨ts0, h0, hts⟩ := consToken_eq_none _ _ _ h
    cases ts1 with
    | nil =>
      simp only [List.nil_append, List.cons.injEq] at hts
      have hcon := congrArg Token.type hts.1
      simp [Token.ofStart] at hcon
    | cons a as =>
      simp only [List.cons_append, List.cons.injEq] at hts
      obtain ⟨hta, hts0⟩ := hts
      subst hts0
      have hrec := ih as q h0
      rw [List.cons_append]
      simp only [lexLoop, h1, h2, h3, h4, h5, h6, if_false, if_true]
      rw [hrec, hta, consToken_glue]
  | case9 rest pos h1 h2 h3 h4 h5 h6 h7 ih =>
    intro ts1 q h
    simp only [lexLoop, h1, h2, h3, h4, h5, h6, h7, if_false, if_true] at h
    obtain ⟨ts0, h0, hts⟩ := consToken_eq_none _ _ _ h
    cases ts1 with
    | nil =>
      simp only [List.nil_append, List.cons.injEq] at hts
      have hcon := congrArg Token.type hts.1
      simp [Token.ofStart] at hcon
    | cons a as =>
      simp only [List.cons_append, List.cons.injEq] at hts
      obtain ⟨hta, hts0⟩ := hts
      subst hts0
      have hrec := ih as q h0
      rw [List.cons_append]
      simp only [lexLoop, h1, h2, h3, h4, h5, h6, h7, if_false, if_true]
      rw [hrec, hta, consToken_glue]
  | case10 c rest pos h1 h2 h3 h4 h5 h6 h7 h8 =>
    intro ts1 q h
    simp [lexLoop, h1, h2, h3, h4, h5, h6, h7, h8] at h

/-- Scanning text that starts with a left parenthesis. -/
theorem lexLoop_lparen (rest : List Char) (p : Position) :
    lexLoop ('(' :: rest) p =
      consToken (Token.ofStart TT_LPAREN p) (lexLoop rest (p.advance (some '('))) := by
  simp only [lexLoop]
  rw [if_neg (by decide), if_neg (by decide), if_neg (by decide), if_neg (by decide),
      if_neg (by decide), if_neg (by decide)]
  simp

/-- Scanning the single character `)`. -/
theorem lexLoop_rparen_only (p : Position) :
    lexLoop [')'] p = ([Token.ofStart TT_RPAREN p,
      Token.ofStart TT_EOF (p.advance (some ')'))], none) := by
  have h1 : lexLoop ([] : List Char) (p.advance (some ')')) =
      ([Token.ofStart TT_EOF (p.advance (some ')'))], none) := by
    simp [lexLoop]
  simp only [lexLoop]
  rw [if_neg (by decide), if_neg (by decide), if_neg (by decide), if_neg (by decide),
      if_neg (by decide), if_neg (by decide), if_neg (by decide)]
  simp [consToken]

/-- One unfolding of `bin_op` at the `term` rule, without unfolding the
inner call. -/
theorem binOpF_term_step (f : Nat) (ops : List TokenType) (st : PState) :
    binOpF (f + 1) .termRule ops st =
      match binOpF f .factorRule [TT_MUL, TT_DIV] st with
      | .ok sub st2 =>
        match sub.error with
        | some e => .ok ⟨.noneNode, some e⟩ st2
        | none => binOpLoopF f .termRule ops sub.node st2
      | r => r := by
  simp only [binOpF]

/-- C4: parenthesization is transparent to AST shape (basic.py 262-271,
`Parser.factor`'s LPAREN branch returns the inner expression's node with no
extra node): for every source text on which `run` succeeds with no error,
`run` on the same text wrapped in "(" and ")" also succeeds with no error
and returns a root whose shape (the tree of operators and literal values)
is identical. -/
theorem claim_C4_paren_transparent (fn text : String) (n : Node)
    (h : run fn text = some (n, none)) :
    ∃ n2 : Node, run fn ("(" ++ text ++ ")") = some (n2, none) ∧ n2.shape = n.shape := by
  rcases hlex : makeTokens fn text with ⟨toks, err⟩
  cases err with
  | some e =>
    simp only [run, hlex] at h
    simp at h
  | none =>
    simp only [run, hlex] at h
    cases hp : parseF (parseFuel toks) (Parser.init toks) with
    | crash => simp [hp] at h
    | fuelOut => simp [hp] at h
    | ok res st2 =>
      simp only [hp, Option.some.injEq, Prod.mk.injEq] at h
      obtain ⟨hnode, herr⟩ := h
      obtain ⟨ts1, q, hts1, hef1⟩ := lexLoop_success_shape text.data ⟨0, 0, 0, fn, text⟩ toks hlex
      subst hts1
      have hlex0 : lexLoop text.data ⟨0, 0, 0, fn, text⟩ =
          (ts1 ++ [Token.ofStart TT_EOF q], none) := hlex
      obtain ⟨ts2, q1, hcorr, hWlex⟩ :
          ∃ ts2 q1, List.Forall₂ corrTok ts1 ts2 ∧
            makeTokens fn ("(" ++ text ++ ")") =
              (Token.ofStart TT_LPAREN ⟨0, 0, 0, fn, "(" ++ text ++ ")"⟩ ::
                ts2 ++ [Token.ofStart TT_RPAREN q1,
                  Token.ofStart TT_EOF (q1.advance (some ')'))], none) := by
        have hWdata : ("(" ++ text ++ ")").data = '(' :: (text.data ++ [')']) := by
          simp [String.data_append]
        obtain ⟨hfor, hiff⟩ := lexLoop_shift text.data ⟨0, 0, 0, fn, text⟩
          (Position.advance ⟨0, 0, 0, fn, "(" ++ text ++ ")"⟩ (some '('))
        have he2 : (lexLoop text.data
            (Position.advance ⟨0, 0, 0, fn, "(" ++ text ++ ")"⟩ (some '('))).2 = none := by
          apply hiff.mp
          rw [hlex0]
        rcases hlex1 : lexLoop text.data
            (Position.advance ⟨0, 0, 0, fn, "(" ++ text ++ ")"⟩ (some '(')) with ⟨us, e⟩
        rw [hlex1] at he2
        simp only at he2
        subst he2
        obtain ⟨ts2, q1, hts2, hef2⟩ := lexLoop_success_shape _ _ us hlex1
        subst hts2
        rw [hlex0, hlex1] at hfor
        simp only at hfor
        obtain ⟨hcorr, -⟩ := forall2_unsnoc hfor
        have happ := lexLoop_append [')']
          (by intro c zrest hcz; cases hcz; decide) text.data _ ts2 q1 hlex1
        rw [lexLoop_rparen_only q1] at happ
        simp only [glueTokens] at happ
        refine ⟨ts2, q1, hcorr, ?_⟩
        show lexLoop ("(" ++ text ++ ")").data ⟨0, 0, 0, fn, "(" ++ text ++ ")"⟩ = _
        rw [hWdata, lexLoop_lparen, happ]
        rfl
      have hlen12 : ts2.length = ts1.length := hcorr.length_eq.symm
      have hBlen : (Token.ofStart TT_LPAREN ⟨0, 0, 0, fn, "(" ++ text ++ ")"⟩ ::
          ts2 ++ [Token.ofStart TT_RPAREN q1,
            Token.ofStart TT_EOF (q1.advance (some ')'))]).length = ts1.length + 3 := by
        simp [hlen12]
      obtain ⟨g, hgB, hgA⟩ : ∃ g : Nat,
          parseFuel (Token.ofStart TT_LPAREN ⟨0, 0, 0, fn, "(" ++ text ++ ")"⟩ ::
            ts2 ++ [Token.ofStart TT_RPAREN q1,
              Token.ofStart TT_EOF (q1.advance (some ')'))]) = g + 1 + 1 + 1 ∧
          parseFuel (ts1 ++ [Token.ofStart TT_EOF q]) ≤ g := by
        refine ⟨4 * ts1.length + 17, ?_, ?_⟩
        · simp only [parseFuel]
          rw [hBlen]
          omega
        · simp only [parseFuel, List.length_append, List.length_cons, List.length_nil]
          omega
      rw [show Parser.init (ts1 ++ [Token.ofStart TT_EOF q]) =
            mkSt (ts1 ++ [Token.ofStart TT_EOF q]) 0 from rfl] at hp
      cases hsub : exprF (parseFuel (ts1 ++ [Token.ofStart TT_EOF q]))
          (mkSt (ts1 ++ [Token.ofStart TT_EOF q]) 0) with
      | crash => simp only [parseF, hsub] at hp; cases hp
      | fuelOut => simp only [parseF, hsub] at hp; cases hp
      | ok res0 st2' =>
        simp only [parseF, hsub] at hp
        cases herr0 : res0.error with
        | some e0 =>
          simp only [herr0] at hp
          cases hp
          rw [herr0] at herr
          cases herr
        | none =>
          simp only [herr0] at hp
          cases hct : st2'.current_tok with
          | none => simp only [hct] at hp; cases hp
          | some ct =>
            simp only [hct] at hp
            by_cases hty : ct.type = TT_EOF
            · rw [if_neg (by simp [hty])] at hp
              cases hp
              simp only [exprF] at hsub
              obtain ⟨hfac, hbin, hloop⟩ := parser_sim ts1 ts2 hcorr
                (Token.ofStart TT_EOF q)
                (Token.ofStart TT_LPAREN ⟨0, 0, 0, fn, "(" ++ text ++ ")"⟩)
                (Token.ofStart TT_RPAREN q1)
                (Token.ofStart TT_EOF (q1.advance (some ')')))
                rfl rfl (parseFuel (ts1 ++ [Token.ofStart TT_EOF q]))
              obtain ⟨i', res2, hi'le, hst2eq, hrun2, herr2, hshape2⟩ :=
                hbin .termRule [TT_PLUS, TT_MINUS] (by decide) (by decide)
                  g 0 res st2 hgA (Nat.zero_le _) hsub herr
              have hi' : i' = ts1.length := by
                by_contra hne
                have hlt : i' < ts1.length := by omega
                rw [hst2eq] at hct
                have hctA : (ts1 ++ [Token.ofStart TT_EOF q])[i']? = some ct := hct
                rw [getElem?_append_lt hlt] at hctA
                have hmem : ct ∈ ts1 := by
                  have h2 : ts1.get ⟨i', hlt⟩ = ct := by
                    cases hctA
                    rfl
                  rw [← h2]
                  exact List.getElem_mem hlt
                exact hef1 ct hmem hty
              subst hi'
              have hrun2' : binOpF g .termRule [TT_PLUS, TT_MINUS]
                  (mkSt (Token.ofStart TT_LPAREN ⟨0, 0, 0, fn, "(" ++ text ++ ")"⟩ ::
                    ts2 ++ [Token.ofStart TT_RPAREN q1,
                      Token.ofStart TT_EOF (q1.advance (some ')'))]) 1) =
                  .ok res2 (mkSt (Token.ofStart TT_LPAREN ⟨0, 0, 0, fn, "(" ++ text ++ ")"⟩ ::
                    ts2 ++ [Token.ofStart TT_RPAREN q1,
                      Token.ofStart TT_EOF (q1.advance (some ')'))]) (ts1.length + 1)) := by
                simpa using hrun2
              have hlpLen : (Token.ofStart TT_LPAREN ⟨0, 0, 0, fn, "(" ++ text ++ ")"⟩ ::
                  ts2).length = ts1.length + 1 := by
                simp [hlen12]
              have hcur0 : (mkSt (Token.ofStart TT_LPAREN ⟨0, 0, 0, fn, "(" ++ text ++ ")"⟩ ::
                  ts2 ++ [Token.ofStart TT_RPAREN q1,
                    Token.ofStart TT_EOF (q1.advance (some ')'))]) 0).current_tok =
                  some (Token.ofStart TT_LPAREN ⟨0, 0, 0, fn, "(" ++ text ++ ")"⟩) := by
                simp [mkSt]
              have hcurL1 : (mkSt (Token.ofStart TT_LPAREN ⟨0, 0, 0, fn, "(" ++ text ++ ")"⟩ ::
                  ts2 ++ [Token.ofStart TT_RPAREN q1,
                    Token.ofStart TT_EOF (q1.advance (some ')'))]) (ts1.length + 1)).current_tok =
                  some (Token.ofStart TT_RPAREN q1) := by
                show (Token.ofStart TT_LPAREN ⟨0, 0, 0, fn, "(" ++ text ++ ")"⟩ ::
                  ts2 ++ [Token.ofStart TT_RPAREN q1,
                    Token.ofStart TT_EOF (q1.advance (some ')'))])[ts1.length + 1]? = _
                rw [List.getElem?_append_right (by rw [hlpLen]), hlpLen]
                simp
              have hcurL2 : (mkSt (Token.ofStart TT_LPAREN ⟨0, 0, 0, fn, "(" ++ text ++ ")"⟩ ::
                  ts2 ++ [Token.ofStart TT_RPAREN q1,
                    Token.ofStart TT_EOF (q1.advance (some ')'))]) (ts1.length + 2)).current_tok =
                  some (Token.ofStart TT_EOF (q1.advance (some ')'))) := by
                show (Token.ofStart TT_LPAREN ⟨0, 0, 0, fn, "(" ++ text ++ ")"⟩ ::
                  ts2 ++ [Token.ofStart TT_RPAREN q1,
                    Token.ofStart TT_EOF (q1.advance (some ')'))])[ts1.length + 2]? = _
                rw [List.getElem?_append_right (by rw [hlpLen]; omega), hlpLen,
                  show ts1.length + 2 - (ts1.length + 1) = 1 from by omega]
                simp
              have hadv0 : Parser.advance
                  (mkSt (Token.ofStart TT_LPAREN ⟨0, 0, 0, fn, "(" ++ text ++ ")"⟩ ::
                    ts2 ++ [Token.ofStart TT_RPAREN q1,
                      Token.ofStart TT_EOF (q1.advance (some ')'))]) 0) =
                  mkSt (Token.ofStart TT_LPAREN ⟨0, 0, 0, fn, "(" ++ text ++ ")"⟩ ::
                    ts2 ++ [Token.ofStart TT_RPAREN q1,
                      Token.ofStart TT_EOF (q1.advance (some ')'))]) 1 := by
                rw [advance_mkSt _ _ (by rw [hBlen]; omega)]
              have hadvL1 : Parser.advance
                  (mkSt (Token.ofStart TT_LPAREN ⟨0, 0, 0, fn, "(" ++ text ++ ")"⟩ ::
                    ts2 ++ [Token.ofStart TT_RPAREN q1,
                      Token.ofStart TT_EOF (q1.advance (some ')'))]) (ts1.length + 1)) =
                  mkSt (Token.ofStart TT_LPAREN ⟨0, 0, 0, fn, "(" ++ text ++ ")"⟩ ::
                    ts2 ++ [Token.ofStart TT_RPAREN q1,
                      Token.ofStart TT_EOF (q1.advance (some ')'))]) (ts1.length + 2) := by
                rw [advance_mkSt _ _ (by rw [hBlen]; omega)]
              have hfac2 : factorF (g + 1)
                  (mkSt (Token.ofStart TT_LPAREN ⟨0, 0, 0, fn, "(" ++ text ++ ")"⟩ ::
                    ts2 ++ [Token.ofStart TT_RPAREN q1,
                      Token.ofStart TT_EOF (q1.advance (some ')'))]) 0) =
                  .ok ⟨res2.node, none⟩
                    (mkSt (Token.ofStart TT_LPAREN ⟨0, 0, 0, fn, "(" ++ text ++ ")"⟩ ::
                      ts2 ++ [Token.ofStart TT_RPAREN q1,
                        Token.ofStart TT_EOF (q1.advance (some ')'))]) (ts1.length + 2)) := by
                simp only [factorF, hcur0]
                rw [if_neg (by simp [Token.ofStart]), if_neg (by simp [Token.ofStart]),
                  if_pos (show (Token.ofStart TT_LPAREN
                    ⟨0, 0, 0, fn, "(" ++ text ++ ")"⟩).type = TT_LPAREN from rfl)]
                rw [hadv0]
                simp only [hrun2', herr2, hcurL1]
                rw [if_pos (show (Token.ofStart TT_RPAREN q1).type = TT_RPAREN from rfl),
                  hadvL1]
              have hterm2 : binOpF (g + 1 + 1) .factorRule [TT_MUL, TT_DIV]
                  (mkSt (Token.ofStart TT_LPAREN ⟨0, 0, 0, fn, "(" ++ text ++ ")"⟩ ::
                    ts2 ++ [Token.ofStart TT_RPAREN q1,
                      Token.ofStart TT_EOF (q1.advance (some ')'))]) 0) =
                  .ok ⟨res2.node, none⟩
                    (mkSt (Token.ofStart TT_LPAREN ⟨0, 0, 0, fn, "(" ++ text ++ ")"⟩ ::
                      ts2 ++ [Token.ofStart TT_RPAREN q1,
                        Token.ofStart TT_EOF (q1.advance (some ')'))]) (ts1.length + 2)) := by
                simp only [binOpF, hfac2]
                simp only [binOpLoopF, hcurL2]
                rw [if_neg (by simp [Token.ofStart])]
              have hexpr2 : binOpF (g + 1 + 1 + 1) .termRule [TT_PLUS, TT_MINUS]
                  (mkSt (Token.ofStart TT_LPAREN ⟨0, 0, 0, fn, "(" ++ text ++ ")"⟩ ::
                    ts2 ++ [Token.ofStart TT_RPAREN q1,
                      Token.ofStart TT_EOF (q1.advance (some ')'))]) 0) =
                  .ok ⟨res2.node, none⟩
                    (mkSt (Token.ofStart TT_LPAREN ⟨0, 0, 0, fn, "(" ++ text ++ ")"⟩ ::
                      ts2 ++ [Token.ofStart TT_RPAREN q1,
                        Token.ofStart TT_EOF (q1.advance (some ')'))]) (ts1.length + 2)) := by
                rw [binOpF_term_step]
                simp only [hterm2]
                simp only [binOpLoopF, hcurL2]
                rw [if_neg (by simp [Token.ofStart])]
              have hparse2 : parseF
                  (parseFuel (Token.ofStart TT_LPAREN ⟨0, 0, 0, fn, "(" ++ text ++ ")"⟩ ::
                    ts2 ++ [Token.ofStart TT_RPAREN q1,
                      Token.ofStart TT_EOF (q1.advance (some ')'))]))
                  (Parser.init (Token.ofStart TT_LPAREN ⟨0, 0, 0, fn, "(" ++ text ++ ")"⟩ ::
                    ts2 ++ [Token.ofStart TT_RPAREN q1,
                      Token.ofStart TT_EOF (q1.advance (some ')'))])) =
                  .ok ⟨res2.node, none⟩
                    (mkSt (Token.ofStart TT_LPAREN ⟨0, 0, 0, fn, "(" ++ text ++ ")"⟩ ::
                      ts2 ++ [Token.ofStart TT_RPAREN q1,
                        Token.ofStart TT_EOF (q1.advance (some ')'))]) (ts1.length + 2)) := by
                rw [show Parser.init (Token.ofStart TT_LPAREN ⟨0, 0, 0, fn, "(" ++ text ++ ")"⟩ ::
                      ts2 ++ [Token.ofStart TT_RPAREN q1,
                        Token.ofStart TT_EOF (q1.advance (some ')'))]) =
                    mkSt (Token.ofStart TT_LPAREN ⟨0, 0, 0, fn, "(" ++ text ++ ")"⟩ ::
                      ts2 ++ [Token.ofStart TT_RPAREN q1,
                        Token.ofStart TT_EOF (q1.advance (some ')'))]) 0 from rfl, hgB]
                simp only [parseF, exprF, hexpr2, hcurL2]
                rw [if_neg (by simp [Token.ofStart])]
              refine ⟨res2.node, ?_, by rw [hshape2, hnode]⟩
              simp only [run, hWlex, hparse2]
            · rw [if_pos (by simp [hty])] at hp
              cases hp
              simp at herr

/-- Witness for C4 at the concrete source text "7": it parses successfully
on its own, and "(7)" parses to a tree of the same shape. -/
theorem claim_C4_paren_transparent_witness :
    ∃ n : Node, run "<stdin>" "7" = some (n, none) ∧
      ∃ n2 : Node, run "<stdin>" ("(" ++ "7" ++ ")") = some (n2, none) ∧
        n2.shape = n.shape := by
  have h7 : run "<stdin>" "7" = some (.NumberNode ⟨TT_INT, some (.intVal 7),
      ⟨0, 0, 0, "<stdin>", "7"⟩, ⟨1, 0, 1, "<stdin>", "7"⟩⟩, none) := by
    simp [run, makeTokens, lexLoop, makeNumber, makeNumberLoop, consToken, parseF, exprF,
      binOpF, binOpLoopF, factorF, Parser.advance, Parser.init, parseFuel, Position.advance,
      Token.ofStart, intValue, digitsVal, WHITESPACE, DIGITS]
  exact ⟨_, h7, claim_C4_paren_transparent "<stdin>" "7" _ h7⟩
